import Mathlib

/-!
# protoc-gen-go-rsn: resource-name patterns and the code generated from them

A shallow embedding of `main.go`.  Go strings are Lean `String`s (the inputs are
protobuf strings, hence valid UTF-8, on which Go's bytewise comparison and
splitting at `/` agree with the character-wise ones used here).  A Go function
returning `(T, error)` is a function into `T × Option String`; code that can
panic (an index out of range, `make` with a negative length) returns `Option`,
`none` being the panic.

The libraries the generator and the generated code call (`strcase`, `regexp`,
`fmt`, the iteration order of a Go map) are parameters of the development:
`GenEnv` for generation time and `RunEnv` for the run time of the emitted code.
-/

namespace GoRsn

/-! ## The Go string functions used by the generator -/

/-- Splitting a list of characters at every occurrence of `sep`; the result always has
one more element than there are separators. -/
def splitOn (sep : Char) : List Char → List (List Char)
  | [] => [[]]
  | c :: cs =>
    if c = sep then [] :: splitOn sep cs
    else
      match splitOn sep cs with
      | [] => [[c]]
      | w :: ws => (c :: w) :: ws

/-- Go `strings.Split(s, sep)` for a one-character separator. -/
def stringsSplit (s : String) (sep : Char) : List String :=
  (splitOn sep s.data).map String.mk

/-- Go `strings.Trim(s, cutset)`: all leading and trailing characters of the cutset are
removed. -/
def stringsTrim (s : String) (cutset : Char → Bool) : String :=
  String.mk ((s.data.dropWhile cutset).rdropWhile cutset)

/-- The cutset `"{}"` of `NewPattern`. -/
def braces (c : Char) : Bool := c = '{' || c = '}'

/-- Go `strings.Join(elems, sep)`. -/
def stringsJoin : List String → String → String
  | [], _ => ""
  | [a], _ => a
  | a :: b :: rest, sep => a ++ sep ++ stringsJoin (b :: rest) sep

/-- The comparison `fields[i] < fields[j]` of Go strings. -/
def strLess (a b : String) : Prop := a.data < b.data

instance (a b : String) : Decidable (strLess a b) := by
  unfold strLess; infer_instance

/-- Go `sort.Slice(fields, less)`: a rearrangement of the slice in which no element is
`less` than an earlier one. -/
def sortSlice (fields : List String) : List String :=
  fields.insertionSort (fun a b => ¬ strLess b a)

/-- Setting `result[k] = struct{}{}` in a Go `map[string]struct{}`, the map being
represented by the list of its keys, each once. -/
def mapInsert (result : List String) (k : String) : List String :=
  if k ∈ result then result else result ++ [k]

/-- What the generator takes from outside `main.go`: the two `strcase` functions, and the
order in which `range` visits the keys of a map (unspecified in Go; some rearrangement of
the keys). -/
structure GenEnv where
  ToCamel : String → String
  ToLowerCamel : String → String
  rangeKeys : List String → List String
  rangeKeys_perm : ∀ ks, (rangeKeys ks).Perm ks

/-! ## `Pattern` -/

/-- The Go struct `Pattern`. -/
structure Pattern where
  collectionIds : List String
  resourceVars : List String
  deriving DecidableEq, Repr

/-- `Pattern.parentStructFields(prefix)`; `make` panics on the length `-1` of a pattern
without variables. -/
def Pattern.parentStructFields (G : GenEnv) (p : Pattern) (pfx : String) :
    Option (List String) :=
  if p.resourceVars.length = 0 then none
  else some ((p.resourceVars.take (p.resourceVars.length - 1)).map
    fun v => pfx ++ G.ToCamel v ++ "Id")

/-- `Pattern.lastStructField(prefix)`; the index `len - 1` is out of range for a pattern
without variables. -/
def Pattern.lastStructField (G : GenEnv) (p : Pattern) (pfx : String) : Option String :=
  (p.resourceVars.getLast?).map fun v => pfx ++ G.ToCamel v ++ "Id"

/-- `Pattern.parentTypeConst()`. -/
def Pattern.parentTypeConst (G : GenEnv) (p : Pattern) : String :=
  match p.resourceVars with
  | [v] => G.ToCamel v ++ "RootParentType"
  | vs => vs.foldl (fun result resourceVar => result ++ G.ToCamel resourceVar) "" ++ "ParentType"

/-- `Pattern.parentTypeString()`; `resourceVars[0]` is out of range for a pattern without
variables. -/
def Pattern.parentTypeString (G : GenEnv) (p : Pattern) : Option String :=
  match p.resourceVars with
  | [] => none
  | [_] => some ""
  | v :: rest =>
    some ((rest.take (rest.length - 1)).foldl
      (fun result resourceVar => result ++ G.ToCamel resourceVar) (G.ToLowerCamel v))

/-- The loop of `Pattern.regexName`: `i` is the index of the next variable. -/
def regexNameLoop (G : GenEnv) : List String → Nat → String → String
  | [], _, result => result
  | v :: vs, i, result =>
    regexNameLoop G vs (i + 1)
      (if i = 0 then result ++ G.ToLowerCamel v else result ++ G.ToCamel v)

/-- `Pattern.regexName()`. -/
def Pattern.regexName (G : GenEnv) (p : Pattern) : String :=
  regexNameLoop G p.resourceVars 0 "" ++ "RsnPattern"

/-- `Pattern.parentRegexName(t)`; `resourceVars[0]` is out of range for a pattern without
variables. -/
def Pattern.parentRegexName (G : GenEnv) (p : Pattern) (t : String) : Option String :=
  match p.resourceVars with
  | [] => none
  | v :: rest =>
    some ((rest.take (rest.length - 1)).foldl
      (fun result resourceVar => result ++ G.ToCamel resourceVar) (G.ToLowerCamel v)
      ++ t ++ "ParentPattern")

/-- The loop shared by the four string builders: for the collection identifier of index
`i`, a `/` unless `i` is `0`, then the identifier followed by `piece`. -/
def joinLoop (piece : String) : List String → Nat → String → String
  | [], _, result => result
  | collectionId :: rest, i, result =>
    joinLoop piece rest (i + 1)
      ((if i ≠ 0 then result ++ "/" else result) ++ (collectionId ++ piece))

/-- `Pattern.regexString()`. -/
def Pattern.regexString (p : Pattern) : String :=
  joinLoop "/([^/]+)" p.collectionIds 0 "^" ++ "$"

/-- `Pattern.parentRegexString()`: the loop runs over the indices below `len - 1`. -/
def Pattern.parentRegexString (p : Pattern) : String :=
  joinLoop "/([^/]+)" (p.collectionIds.take (p.collectionIds.length - 1)) 0 "^" ++ "$"

/-- `Pattern.formatString()`. -/
def Pattern.formatString (p : Pattern) : String :=
  joinLoop "/%s" p.collectionIds 0 ""

/-- `Pattern.parentFormatString()`. -/
def Pattern.parentFormatString (p : Pattern) : String :=
  joinLoop "/%s" (p.collectionIds.take (p.collectionIds.length - 1)) 0 ""

/-- The loop of `NewPattern`: two segments at a time, the first a collection identifier,
the second a variable with its braces trimmed. -/
def newPatternLoop : List String → Pattern → Pattern
  | a :: b :: rest, p =>
    newPatternLoop rest
      { collectionIds := p.collectionIds ++ [a],
        resourceVars := p.resourceVars ++ [stringsTrim b braces] }
  | _, p => p

/-- `NewPattern(patternString)`. -/
def NewPattern (patternString : String) : Pattern × Option String :=
  let splittedPattern := stringsSplit patternString '/'
  if splittedPattern.length % 2 ≠ 0 then
    (Pattern.mk [] [],
      some "the pattern does not have an equal number of collection ids and resource variables")
  else (newPatternLoop splittedPattern (Pattern.mk [] []), none)

/-! ## `Resource` -/

/-- The Go struct `Resource`. -/
structure Resource where
  ServiceName : String
  Type_ : String
  Patterns : List Pattern
  deriving DecidableEq, Repr

/-- The zero value `Resource{}`. -/
def Resource.zero : Resource := Resource.mk "" "" []

/-- `Resource.parentTypeTypeAlias()`. -/
def Resource.parentTypeTypeAlias (r : Resource) : String := r.Type_ ++ "ParentType"

/-- `Resource.structName()`. -/
def Resource.structName (r : Resource) : String := r.Type_ ++ "Rsn"

/-- `Resource.parentStructName()`. -/
def Resource.parentStructName (r : Resource) : String := r.Type_ ++ "ParentRsn"

/-- The first loop of `Resource.parentStructFields`: the keys of the map `result` after
the fields of every pattern were entered. -/
def parentFieldSet (G : GenEnv) : List Pattern → List String → Option (List String)
  | [], result => some result
  | pattern :: rest, result =>
    match pattern.parentStructFields G "" with
    | none => none
    | some fields => parentFieldSet G rest (fields.foldl mapInsert result)

/-- `Resource.parentStructFields()`. -/
def Resource.parentStructFields (G : GenEnv) (r : Resource) : Option (List String) :=
  (parentFieldSet G r.Patterns []).map fun result => sortSlice (G.rangeKeys result)

/-- The first loop of `Resource.lastStructFields`. -/
def lastFieldSet (G : GenEnv) : List Pattern → List String → Option (List String)
  | [], result => some result
  | pattern :: rest, result =>
    match pattern.lastStructField G "" with
    | none => none
    | some field => lastFieldSet G rest (mapInsert result field)

/-- `Resource.lastStructFields()`. -/
def Resource.lastStructFields (G : GenEnv) (r : Resource) : Option (List String) :=
  (lastFieldSet G r.Patterns []).map fun result => sortSlice (G.rangeKeys result)

/-- The two fields of `annotations.ResourceDescriptor` that the generator reads. -/
structure ResourceDescriptor where
  Type_ : String
  Pattern : List String
  deriving DecidableEq, Repr

/-- The loop of `parseResourceFromDescriptor` over the raw pattern strings. -/
def parsePatternsLoop : List String → Resource → Resource × Option String
  | [], resource => (resource, none)
  | patternString :: rest, resource =>
    match NewPattern patternString with
    | (_, some err) => (Resource.zero, some ("invalid pattern " ++ patternString ++ ": " ++ err))
    | (pattern, none) =>
      parsePatternsLoop rest { resource with Patterns := resource.Patterns ++ [pattern] }

/-- `parseResourceFromDescriptor(resourceDescriptor)`. -/
def parseResourceFromDescriptor (resourceDescriptor : ResourceDescriptor) :
    Resource × Option String :=
  if resourceDescriptor.Type_.length = 0 then
    (Resource.zero, some "resource descriptor should have a type")
  else if resourceDescriptor.Pattern.length = 0 then
    (Resource.zero, some "resource descriptor should have at least 1 pattern")
  else
    match stringsSplit resourceDescriptor.Type_ '/' with
    | [serviceName, type] =>
      parsePatternsLoop resourceDescriptor.Pattern (Resource.mk serviceName type [])
    | _ => (Resource.zero, some ("invalid resource type " ++ resourceDescriptor.Type_))

/-! ## The generated code

`generateResource` prints Go declarations.  `ResourceCode` holds the values that it
splices into the text, and the functions below are the meaning of the emitted
declarations: the two record types, `ResourceName()`, and the two parse functions. -/

/-- What the emitted code takes from the Go standard library.  `MustCompile expr` is the
compiled regular expression, given by its `FindStringSubmatch` (`none`: no match, else the
matched text followed by the capture groups); `MustCompile` itself is `none` when it
panics.  `Sprintf format args` is `fmt.Sprintf` on string operands. -/
structure RunEnv where
  MustCompile : String → Option (String → Option (List String))
  Sprintf : String → List String → Option String

/-- The values `generateResource` computes from one pattern and writes into the text. -/
structure PatternCode where
  parentTypeConst : String
  parentTypeString : String
  parentStructFields : List String
  lastStructField : String
  parentRegexName : String
  regexName : String
  parentRegexString : String
  regexString : String
  parentFormatString : String
  formatString : String
  deriving DecidableEq, Repr

/-- The values `generateResource` computes from a resource. -/
structure ResourceCode where
  ServiceName : String
  Type_ : String
  parentStructFields : List String
  lastStructFields : List String
  patterns : List PatternCode
  deriving DecidableEq, Repr

/-- The calls `generateResource` makes on one pattern; `none` when one of them panics. -/
def Pattern.code (G : GenEnv) (t : String) (p : Pattern) : Option PatternCode :=
  match p.parentTypeString G, p.parentStructFields G "", p.lastStructField G "",
      p.parentRegexName G t with
  | some typeString, some fields, some last, some parentName =>
    some
      { parentTypeConst := p.parentTypeConst G
        parentTypeString := typeString
        parentStructFields := fields
        lastStructField := last
        parentRegexName := parentName
        regexName := p.regexName G
        parentRegexString := p.parentRegexString
        regexString := p.regexString
        parentFormatString := p.parentFormatString
        formatString := p.formatString }
  | _, _, _, _ => none

/-- The loops `for _, pattern := range resource.Patterns` of `generateResource`. -/
def patternCodes (G : GenEnv) (t : String) : List Pattern → Option (List PatternCode)
  | [] => some []
  | pattern :: rest =>
    match pattern.code G t, patternCodes G t rest with
    | some pc, some pcs => some (pc :: pcs)
    | _, _ => none

/-- `generateResource(g, resource)`: the values written into the generated file, `none`
when the generator panics. -/
def generateResource (G : GenEnv) (resource : Resource) : Option ResourceCode :=
  match resource.parentStructFields G, resource.lastStructFields G,
      patternCodes G resource.Type_ resource.Patterns with
  | some parentFields, some lastFields, some pcs =>
    some
      { ServiceName := resource.ServiceName
        Type_ := resource.Type_
        parentStructFields := parentFields
        lastStructFields := lastFields
        patterns := pcs }
  | _, _, _ => none

/-- A value of the emitted struct `<T>ParentRsn`: a string for each field name (the
declared fields are `ResourceCode.parentStructFields`) and the discriminator `Type`. -/
structure ParentRsn where
  field : String → String
  Type_ : String

/-- A value of the emitted struct `<T>Rsn`: the embedded parent record and a string for
each field name (the declared fields are `ResourceCode.lastStructFields`). -/
structure Rsn where
  Parent : ParentRsn
  field : String → String

/-- The fields of a Go composite literal `T{f1: v1, ..., fn: vn}`: every field that is not
listed holds the zero value `""`.  (The Go compiler rejects a literal that names a field
twice; the model reads the first.) -/
def structLit : List (String × String) → String → String
  | [], _ => ""
  | (k, v) :: rest, f => if f = k then v else structLit rest f

/-- The zero value `<T>ParentRsn{}`. -/
def ParentRsn.zero : ParentRsn := ParentRsn.mk (structLit []) ""

/-- The zero value `<T>Rsn{}`. -/
def Rsn.zero : Rsn := Rsn.mk ParentRsn.zero (structLit [])

/-- The emitted lines `structField: match[i+1],` for the fields from index `i` on; `none`
when an index is out of range. -/
def fieldInits (m : List String) : List String → Nat → Option (List (String × String))
  | [], _ => some []
  | structField :: rest, i =>
    match m[i + 1]?, fieldInits m rest (i + 1) with
    | some v, some inits => some ((structField, v) :: inits)
    | _, _ => none

/-- A compiled regular expression, by its `FindStringSubmatch`. -/
abbrev Regexp := String → Option (List String)

/-- The two emitted `var (...)` blocks, evaluated when the package is initialised: for
every pattern the compiled parent expression and the compiled full expression. -/
def compileAll (R : RunEnv) : List PatternCode → Option (List (PatternCode × Regexp × Regexp))
  | [] => some []
  | pc :: rest =>
    match R.MustCompile pc.parentRegexString, R.MustCompile pc.regexString,
        compileAll R rest with
    | some parentRe, some re, some res => some ((pc, parentRe, re) :: res)
    | _, _, _ => none

/-- The generated package once initialised. -/
structure Package where
  code : ResourceCode
  regexps : List (PatternCode × Regexp × Regexp)

/-- Initialisation of the generated package; `none` when a `MustCompile` panics. -/
def ResourceCode.init (R : RunEnv) (c : ResourceCode) : Option Package :=
  (compileAll R c.patterns).map fun res => Package.mk c res

/-- The emitted `return <T>ParentRsn{structField: match[i+1], ..., Type: const}, nil` of
one pattern; `none` when an index is out of range. -/
def PatternCode.parentRsn (pc : PatternCode) (m : List String) : Option ParentRsn :=
  (fieldInits m pc.parentStructFields 0).map fun inits =>
    ParentRsn.mk (structLit inits) pc.parentTypeString

/-- The emitted `return <T>Rsn{Parent: <T>ParentRsn{...}, last: match[n]}, nil` of one
pattern, `n` being `len(pattern.parentStructFields("")) + 1`; `none` when an index is out
of range. -/
def PatternCode.rsn (pc : PatternCode) (m : List String) : Option Rsn :=
  match pc.parentRsn m, m[pc.parentStructFields.length + 1]? with
  | some parent, some last => some (Rsn.mk parent (structLit [(pc.lastStructField, last)]))
  | _, _ => none

/-- The emitted `if match := ...; match != nil { return ... }` statements of
`Parse<T>ParentResourceName`, then its final `return`. -/
def parseParentLoop (c : ResourceCode) (resourceName : String) :
    List (PatternCode × Regexp × Regexp) → Option (ParentRsn × Option String)
  | [] =>
    some (ParentRsn.zero,
      some ("invalid parent resource name for resource type '" ++ c.Type_ ++
        "' in service '" ++ c.ServiceName ++ "'"))
  | (pc, parentRe, _) :: rest =>
    match parentRe resourceName with
    | some m => (pc.parentRsn m).map fun r => (r, none)
    | none => parseParentLoop c resourceName rest

/-- The emitted `Parse<T>ParentResourceName(resourceName)`; `none` is a panic. -/
def Package.ParseParentResourceName (pkg : Package) (resourceName : String) :
    Option (ParentRsn × Option String) :=
  parseParentLoop pkg.code resourceName pkg.regexps

/-- The emitted `if match := ...; match != nil { return ... }` statements of
`Parse<T>ResourceName`, then its final `return`. -/
def parseLoop (c : ResourceCode) (resourceName : String) :
    List (PatternCode × Regexp × Regexp) → Option (Rsn × Option String)
  | [] =>
    some (Rsn.zero,
      some ("invalid resource name for resource type '" ++ c.Type_ ++
        "' in service '" ++ c.ServiceName ++ "'"))
  | (pc, _, re) :: rest =>
    match re resourceName with
    | some m => (pc.rsn m).map fun r => (r, none)
    | none => parseLoop c resourceName rest

/-- The emitted `Parse<T>ResourceName(resourceName)`; `none` is a panic. -/
def Package.ParseResourceName (pkg : Package) (resourceName : String) :
    Option (Rsn × Option String) :=
  parseLoop pkg.code resourceName pkg.regexps

/-- The emitted `switch r.Type { case ...: return ... }`: the first pattern whose
discriminator constant equals `t`.  (The Go compiler rejects a switch in which two case
constants have the same value.) -/
def switchType (t : String) : List PatternCode → Option PatternCode
  | [] => none
  | pc :: rest => if t = pc.parentTypeString then some pc else switchType t rest

/-- A character that the Go compiler reads as itself between double quotes: not a double
quote, a backslash or a newline, and not a NUL or a byte order mark, which a Go source file
may not hold. -/
def interpretedChar (ch : Char) : Bool :=
  !(ch == '\x22' || ch == '\\' || ch == '\n' || ch == '\x00' || ch == '\uFEFF')

/-- The generator writes a format between two double quotes into the Go source.  This is
the value of the string literal that the Go compiler reads there: the text itself when all its characters stand for themselves.
Otherwise the text is not read as this one literal (a double quote ends the literal and
what follows becomes further operands, a backslash starts an escape, a newline is an
error), which is outside the model (`none`). -/
def interpretedString (text : String) : Option String :=
  if text.data.all interpretedChar then some text else none

/-- The emitted `(r <T>ParentRsn) ResourceName()`; the format is the literal written from
`parentFormatString()`, and the arguments of `Sprintf` are the fields `r.<field>` for the
pattern's parent fields. -/
def ParentRsn.ResourceName (R : RunEnv) (c : ResourceCode) (r : ParentRsn) : Option String :=
  match switchType r.Type_ c.patterns with
  | some pc =>
    match interpretedString pc.parentFormatString with
    | some format => R.Sprintf format (pc.parentStructFields.map r.field)
    | none => none
  | none => some ""

/-- The emitted `(r <T>Rsn) ResourceName()`; the format is the literal written from
`formatString()`, and the arguments of `Sprintf` are the fields `r.Parent.<field>` for the
pattern's parent fields, then `r.<field>` for its last field. -/
def Rsn.ResourceName (R : RunEnv) (c : ResourceCode) (r : Rsn) : Option String :=
  match switchType r.Parent.Type_ c.patterns with
  | some pc =>
    match interpretedString pc.formatString with
    | some format =>
      R.Sprintf format
        (pc.parentStructFields.map r.Parent.field ++ [r.field pc.lastStructField])
    | none => none
  | none => some ""

/-! ## Models of the library functions

The theorems that do not depend on what a library function computes are stated for every
`GenEnv` and `RunEnv`.  The models below fix them where a statement is about matching,
formatting or a concrete name. -/

/-- ASCII upper case. -/
def asciiUpper (c : Char) : Char :=
  if 'a' ≤ c ∧ c ≤ 'z' then Char.ofNat (c.toNat - 32) else c

/-- ASCII lower case. -/
def asciiLower (c : Char) : Char :=
  if 'A' ≤ c ∧ c ≤ 'Z' then Char.ofNat (c.toNat + 32) else c

/-- The loop of the camel-casing: `capNext` asks for a capital, `first` marks the first
character, `prevIsCap` tells whether the previous character was a capital. -/
def camelLoop : List Char → Bool → Bool → Bool → List Char
  | [], _, _, _ => []
  | v :: rest, capNext, first, prevIsCap =>
    let vIsCap := decide ('A' ≤ v ∧ v ≤ 'Z')
    let vIsLow := decide ('a' ≤ v ∧ v ≤ 'z')
    let w :=
      if capNext then asciiUpper v
      else if first then asciiLower v
      else if prevIsCap && vIsCap then asciiLower v
      else v
    if vIsCap || vIsLow then w :: camelLoop rest false false vIsCap
    else if decide ('0' ≤ v ∧ v ≤ '9') then w :: camelLoop rest true false vIsCap
    else camelLoop rest (v = '_' || v = ' ' || v = '-' || v = '.') false vIsCap

/-- Go `unicode.IsSpace`, the white space that `strings.TrimSpace` removes. -/
def unicodeIsSpace (c : Char) : Bool :=
  c == '\t' || c == '\n' || c == '\x0b' || c == '\x0c' || c == '\r' || c == ' ' ||
    c == '\u0085' || c == '\u00A0' || c == '\u1680' ||
    (decide (0x2000 ≤ c.toNat) && decide (c.toNat ≤ 0x200A)) ||
    c == '\u2028' || c == '\u2029' || c == '\u202F' || c == '\u205F' || c == '\u3000'

/-- Modelled from the spec: `strcase.ToCamel` and `strcase.ToLowerCamel` belong to the
library `github.com/iancoleman/strcase`, which is not part of the repository.  The spec's
naming rule: words are split at `_`, `-`, space and `.`, every word after the first is
capitalised, and the very first letter is a capital for the upper and a small letter for
the lower variant.  The string is first trimmed as by `strings.TrimSpace`; `initCase`
chooses the upper variant. -/
def toCamelInitCase (s : String) (initCase : Bool) : String :=
  String.mk (camelLoop ((s.data.dropWhile unicodeIsSpace).rdropWhile unicodeIsSpace)
    initCase true false)

/-- The generation-time environment used for the examples: the model of `strcase`, and a
map whose keys are visited in the order of insertion. -/
def goGen : GenEnv where
  ToCamel := fun s => toCamelInitCase s true
  ToLowerCamel := fun s => toCamelInitCase s false
  rangeKeys := fun ks => ks
  rangeKeys_perm := fun ks => List.Perm.refl ks

/-- The regular expressions of the model: a sequence of these items. -/
inductive RegexAtom where
  | bot
  | eot
  | any
  | lit (c : Char)
  | group
  deriving DecidableEq, Repr

/-- The characters with a special meaning in Go regular expressions. -/
def regexMeta (c : Char) : Bool :=
  c ∈ ['\\', '.', '+', '*', '?', '(', ')', '|', '[', ']', '{', '}', '^', '$']

/-- Parsing of a regular expression: `^` (start of text), `$` (end of text), `.` (any
character but the newline), the capture group `([^/]+)`, and characters that stand for
themselves.  Every other use of a special character is outside the model (`none`). -/
def parseRegex : List Char → Option (List RegexAtom)
  | [] => some []
  | c :: rest =>
    if c = '(' then
      match rest with
      | '[' :: '^' :: '/' :: ']' :: '+' :: ')' :: rest' =>
        (parseRegex rest').map (RegexAtom.group :: ·)
      | _ => none
    else if c = '^' then (parseRegex rest).map (RegexAtom.bot :: ·)
    else if c = '$' then (parseRegex rest).map (RegexAtom.eot :: ·)
    else if c = '.' then (parseRegex rest).map (RegexAtom.any :: ·)
    else if regexMeta c then none
    else (parseRegex rest).map (RegexAtom.lit c :: ·)

/-- The greedy group `([^/]+)` followed by the continuation `k`: the group takes `n`
characters if the rest then matches, else it is tried with fewer, and never with none. -/
def groupTry (k : List Char → Option (List Char × List (List Char))) (xs : List Char) :
    Nat → Option (List Char × List (List Char))
  | 0 => none
  | n + 1 =>
    match k (xs.drop (n + 1)) with
    | some (w, gs) => some (xs.take (n + 1) ++ w, xs.take (n + 1) :: gs)
    | none => groupTry k xs n

/-- Matching a sequence of items at the current position (`atStart`: nothing was read
before it): the text matched and the capture groups, preferring the longest group. -/
def matchHere : List RegexAtom → Bool → List Char → Option (List Char × List (List Char))
  | [], _, _ => some ([], [])
  | RegexAtom.bot :: rest, atStart, xs => if atStart then matchHere rest atStart xs else none
  | RegexAtom.eot :: rest, atStart, xs => if xs = [] then matchHere rest atStart xs else none
  | RegexAtom.any :: _, _, [] => none
  | RegexAtom.any :: rest, _, x :: xs =>
    if x = '\n' then none
    else (matchHere rest false xs).map fun (w, gs) => (x :: w, gs)
  | RegexAtom.lit _ :: _, _, [] => none
  | RegexAtom.lit c :: rest, _, x :: xs =>
    if x = c then (matchHere rest false xs).map fun (w, gs) => (x :: w, gs) else none
  | RegexAtom.group :: rest, _, xs =>
    groupTry (matchHere rest false) xs (xs.takeWhile (· ≠ '/')).length

/-- The leftmost match: the start positions are tried from left to right. -/
def findFrom (atoms : List RegexAtom) : Bool → List Char → Option (List Char × List (List Char))
  | atStart, [] => matchHere atoms atStart []
  | atStart, x :: xs =>
    match matchHere atoms atStart (x :: xs) with
    | some r => some r
    | none => findFrom atoms false xs

/-- Modelled from the spec: `regexp.MustCompile(expr)` and `FindStringSubmatch` on the
result belong to the Go standard library, which is not part of the repository.  The
spec's matching expression is anchored at the start and the end of the candidate and each
value capture excludes the separator `/`; the result is the matched text followed by the
capture groups, and `none` for an expression outside `parseRegex`. -/
def goMustCompile (expr : String) : Option Regexp :=
  (parseRegex expr.data).map fun atoms s =>
    (findFrom atoms true s.data).map fun (w, gs) => String.mk w :: gs.map String.mk

/-- The loop of `Sprintf`: a `%s` is replaced by the next operand, every other character
is copied.  Any other use of `%`, a missing and a surplus operand are outside the model. -/
def sprintfLoop : List Char → List String → Option (List Char)
  | [], [] => some []
  | [], _ :: _ => none
  | c :: rest, args =>
    if c = '%' then
      match rest, args with
      | 's' :: rest', a :: args' => (sprintfLoop rest' args').map (a.data ++ ·)
      | _, _ => none
    else (sprintfLoop rest args).map (c :: ·)

/-- Modelled from the spec: `fmt.Sprintf(format, args...)` belongs to the Go standard
library, which is not part of the repository.  The spec's format template holds one
positional substitution slot `%s` per value, filled in order; `none` for a format or an
operand list outside `sprintfLoop`. -/
def goSprintf (format : String) (args : List String) : Option String :=
  (sprintfLoop format.data args).map String.mk

/-- The run-time environment of the models above. -/
def goRun : RunEnv where
  MustCompile := goMustCompile
  Sprintf := goSprintf


/-! ## The pattern grammar and the examples of the specification -/

/-- The text `literal_1/{name_1}/.../literal_N/{name_N}` of the pattern grammar, for the
pairs `(literal_i, name_i)`. -/
def patternText : List (String × String) → String
  | [] => ""
  | [(l, n)] => l ++ "/\x7b" ++ n ++ "\x7d"
  | (l, n) :: rest => l ++ "/\x7b" ++ n ++ "\x7d/" ++ patternText rest

/-- A name that neither begins nor ends with a brace. -/
def noOuterBrace (n : String) : Prop :=
  n.data.head?.map braces ≠ some true ∧ n.data.getLast?.map braces ≠ some true

instance (n : String) : Decidable (noOuterBrace n) :=
  inferInstanceAs (Decidable (_ ∧ _))

/-- The resource of the specification's examples, with its two patterns. -/
def logEntry : Resource :=
  Resource.mk "logging.googleapis.com" "LogEntry"
    [Pattern.mk ["projects", "logEntries"] ["project", "log_entry"],
      Pattern.mk ["organizations", "logEntries"] ["organization", "log_entry"]]

/-- The values generated for `logEntry`. -/
def logEntryCode : ResourceCode :=
  (generateResource goGen logEntry).getD (ResourceCode.mk "" "" [] [] [])

/-- The package generated for `logEntry`, initialised. -/
def logEntryPackage : Package :=
  (logEntryCode.init goRun).getD (Package.mk logEntryCode [])

/-- The result of `FindStringSubmatch` of the compiled `regexString()` of a pattern on a
candidate string: `none` when there is no match. -/
def Pattern.find (R : RunEnv) (p : Pattern) (s : String) : Option (List String) :=
  (R.MustCompile p.regexString).bind fun re => re s

/-- The result of `FindStringSubmatch` of the compiled `parentRegexString()` of a pattern
on a candidate string. -/
def Pattern.findParent (R : RunEnv) (p : Pattern) (s : String) : Option (List String) :=
  (R.MustCompile p.parentRegexString).bind fun re => re s

/-- The error of `Parse<T>ResourceName`. -/
def invalidResourceName (r : Resource) : String :=
  "invalid resource name for resource type '" ++ r.Type_ ++ "' in service '" ++
    r.ServiceName ++ "'"

/-! ## The shape of the expressions and templates, character by character -/

/-- The items a literal segment is parsed into. -/
def litAtoms (cs : List Char) : List RegexAtom :=
  cs.map fun ch => if ch = '.' then RegexAtom.any else RegexAtom.lit ch

/-- The items of an expression from the second collection identifier on, with the final
`$`. -/
def tailAtoms : List String → List RegexAtom
  | [] => [RegexAtom.eot]
  | c :: rest =>
    RegexAtom.lit '/' ::
      (litAtoms c.data ++ RegexAtom.lit '/' :: RegexAtom.group :: tailAtoms rest)

/-- The items of the whole expression for a list of collection identifiers. -/
def allAtoms : List String → List RegexAtom
  | [] => [RegexAtom.bot, RegexAtom.eot]
  | c :: rest =>
    RegexAtom.bot :: (litAtoms c.data ++ RegexAtom.lit '/' :: RegexAtom.group :: tailAtoms rest)

/-- The text of a name from the second collection identifier on, for the given values. -/
def tailText : List String → List String → List Char
  | c :: rest, v :: vs => '/' :: (c.data ++ '/' :: (v.data ++ tailText rest vs))
  | _, _ => []

/-- The text of a whole name, for the given collection identifiers and values. -/
def allText : List String → List String → List Char
  | c :: rest, v :: vs => c.data ++ '/' :: (v.data ++ tailText rest vs)
  | _, _ => []

/-- What the loop of the string builders appends from the second collection identifier
on. -/
def tailChars (piece : String) (ids : List String) : List Char :=
  ids.flatMap fun c => '/' :: (c.data ++ piece.data)

/-- A character of a collection identifier for which formatting and matching agree in the
model: it stands for itself in a regular expression, or is a `.`, and is not a `%`. -/
def litOk (ch : Char) : Prop := (ch = '.' ∨ regexMeta ch = false) ∧ ch ≠ '%'

instance (ch : Char) : Decidable (litOk ch) := inferInstanceAs (Decidable (_ ∧ _))

/-- A character of a collection identifier that stands for itself both in a regular
expression and in a format. -/
def plainChar (ch : Char) : Prop := regexMeta ch = false ∧ ch ≠ '%'

instance (ch : Char) : Decidable (plainChar ch) := inferInstanceAs (Decidable (_ ∧ _))

/-! ## The zero checks of the generated records -/

/-- The emitted `(r <T>ParentRsn) IsZero()`: the conjunction of `len(r.<field>) == 0` over
the reconciled parent fields and of `len(r.Type) == 0`. -/
def ParentRsn.IsZero (c : ResourceCode) (r : ParentRsn) : Bool :=
  c.parentStructFields.all (fun structField => (r.field structField).length == 0) &&
    r.Type_.length == 0

/-- The emitted `(r <T>Rsn) IsZero()`: the conjunction of `r.Parent.IsZero()` and of
`len(r.<field>) == 0` over the reconciled identifier fields. -/
def Rsn.IsZero (c : ResourceCode) (r : Rsn) : Bool :=
  r.Parent.IsZero c &&
    c.lastStructFields.all (fun structField => (r.field structField).length == 0)

/-! ## Further notions used in the statements -/

/-- The concatenation of a list of strings, in order and without a separator. -/
def concatStrings : List String → String
  | [] => ""
  | s :: rest => s ++ concatStrings rest

/-- A generation-time environment that differs from `goGen` in the order in which the
keys of a map are visited: here the reverse of the order of insertion. -/
def goGenReversed : GenEnv where
  ToCamel := fun s => toCamelInitCase s true
  ToLowerCamel := fun s => toCamelInitCase s false
  rangeKeys := fun ks => ks.reverse
  rangeKeys_perm := fun ks => List.reverse_perm ks

/-- The patterns of `logEntry` in the other order, the first of them twice. -/
def logEntryShuffled : Resource :=
  Resource.mk "logging.googleapis.com" "LogEntry"
    [Pattern.mk ["organizations", "logEntries"] ["organization", "log_entry"],
      Pattern.mk ["projects", "logEntries"] ["project", "log_entry"],
      Pattern.mk ["organizations", "logEntries"] ["organization", "log_entry"]]

/-- Two patterns with the same final collection identifier `logs` whose last variables
differ. -/
def sameCollection : Resource :=
  Resource.mk "logging.googleapis.com" "Log"
    [Pattern.mk ["projects", "logs"] ["project", "log"],
      Pattern.mk ["organizations", "logs"] ["organization", "entry"]]

/-- A character of a collection identifier that the Go compiler reads as itself both
between double quotes (the formats) and between backquotes (the regular expressions): not
a double quote, a backquote, a carriage return or a newline, and not a NUL or a byte order
mark. -/
def spliceChar (ch : Char) : Prop :=
  interpretedChar ch = true ∧ ch ≠ '\x60' ∧ ch ≠ '\r'

instance (ch : Char) : Decidable (spliceChar ch) := inferInstanceAs (Decidable (_ ∧ _))

/-! ## Splitting -/

theorem splitOn_ne_nil (sep : Char) (l : List Char) : splitOn sep l ≠ [] := by
  induction l with
  | nil => simp [splitOn]
  | cons c cs ih =>
    unfold splitOn
    split
    · simp
    · split
      · simp
      · simp

theorem splitOn_cons_sep (sep : Char) (l : List Char) :
    splitOn sep (sep :: l) = [] :: splitOn sep l := by
  simp [splitOn]

theorem splitOn_cons_ne (sep c : Char) (l : List Char) (h : c ≠ sep) :
    splitOn sep (c :: l) =
      ((splitOn sep l).headD [] |> (c :: ·)) :: (splitOn sep l).tail := by
  conv_lhs => unfold splitOn
  rw [if_neg h]
  cases hs : splitOn sep l with
  | nil => exact absurd hs (splitOn_ne_nil sep l)
  | cons w ws => simp

theorem splitOn_noSep (sep : Char) (l : List Char) (h : sep ∉ l) : splitOn sep l = [l] := by
  induction l with
  | nil => simp [splitOn]
  | cons c cs ih =>
    have hc : c ≠ sep := fun e => h (by simp [e])
    have hcs : sep ∉ cs := fun e => h (by simp [e])
    rw [splitOn_cons_ne sep c cs hc, ih hcs]
    simp

theorem splitOn_append (sep : Char) (a b : List Char) (h : sep ∉ a) :
    splitOn sep (a ++ sep :: b) = a :: splitOn sep b := by
  induction a with
  | nil => simp [splitOn]
  | cons c cs ih =>
    have hc : c ≠ sep := fun e => h (by simp [e])
    have hcs : sep ∉ cs := fun e => h (by simp [e])
    rw [List.cons_append, splitOn_cons_ne sep c _ hc, ih hcs]
    simp

/-- Every segment of a split is free of the separator, and the segments joined by the
separator give the text back. -/
theorem splitOn_spec (sep : Char) (l : List Char) :
    (∀ w ∈ splitOn sep l, sep ∉ w) ∧ [sep].intercalate (splitOn sep l) = l := by
  induction l with
  | nil => simp [splitOn, List.intercalate]
  | cons c cs ih =>
    by_cases hc : c = sep
    · subst hc
      rw [splitOn_cons_sep]
      refine ⟨?_, ?_⟩
      · intro w hw
        rcases List.mem_cons.1 hw with rfl | hw
        · simp
        · exact ih.1 w hw
      · have h2 := ih.2
        cases hs : splitOn c cs with
        | nil => exact absurd hs (splitOn_ne_nil c cs)
        | cons w ws =>
          rw [hs] at h2
          simp [List.intercalate] at h2 ⊢
          exact h2
    · rw [splitOn_cons_ne sep c cs hc]
      cases hs : splitOn sep cs with
      | nil => exact absurd hs (splitOn_ne_nil sep cs)
      | cons w ws =>
        rw [hs] at ih
        refine ⟨?_, ?_⟩
        · intro x hx
          simp at hx
          rcases hx with rfl | hx
          · have := ih.1 w (by simp)
            simp [this, Ne.symm hc]
          · exact ih.1 x (by simp [hx])
        · have h2 := ih.2
          cases ws with
          | nil => simp [List.intercalate] at h2 ⊢; exact h2
          | cons w2 ws2 => simp [List.intercalate] at h2 ⊢; exact h2

/-! ## `NewPattern` and `parseResourceFromDescriptor` -/

theorem length_eq_zero_iff (s : String) : s.length = 0 ↔ s = "" := by
  constructor
  · intro h
    apply String.ext
    have : s.data.length = 0 := h
    simpa using List.length_eq_zero.1 this
  · rintro rfl; rfl

theorem NewPattern_ok_iff (s : String) :
    (NewPattern s).2 = none ↔ (stringsSplit s '/').length % 2 = 0 := by
  unfold NewPattern
  by_cases h : (stringsSplit s '/').length % 2 = 0
  · simp [h]
  · simp [h]

theorem NewPattern_fst_of_error (s : String) (h : (NewPattern s).2 ≠ none) :
    (NewPattern s).1 = Pattern.mk [] [] := by
  unfold NewPattern at h ⊢
  by_cases h2 : (stringsSplit s '/').length % 2 = 0
  · simp [h2] at h
  · simp [h2]

theorem parsePatternsLoop_spec (ps : List String) :
    ∀ r : Resource,
      ((parsePatternsLoop ps r).2 = none ↔ ∀ s ∈ ps, (NewPattern s).2 = none) ∧
      ((parsePatternsLoop ps r).2 = none →
        (parsePatternsLoop ps r).1 =
          { r with Patterns := r.Patterns ++ ps.map fun s => (NewPattern s).1 }) ∧
      ((parsePatternsLoop ps r).2 ≠ none → (parsePatternsLoop ps r).1 = Resource.zero) := by
  induction ps with
  | nil => intro r; simp [parsePatternsLoop]
  | cons s rest ih =>
    intro r
    unfold parsePatternsLoop
    rcases hn : NewPattern s with ⟨p, e⟩
    cases e with
    | some err => simp [hn]
    | none =>
      have := ih { r with Patterns := r.Patterns ++ [p] }
      simp only [List.mem_cons, forall_eq_or_imp, hn, true_and, List.map_cons]
      refine ⟨this.1, ?_, this.2.2⟩
      intro h
      rw [this.2.1 h]
      simp

/-- C5. `NewPattern` returns an error (with the zero pattern) exactly for the pattern
strings whose number of `/`-separated segments is odd, and returns no error exactly for
those whose number of segments is even; the empty string has one segment and is
rejected. -/
theorem NewPattern_error_iff_odd_segments (s : String) :
    ((stringsSplit s '/').length % 2 = 1 ↔
      (NewPattern s).2 ≠ none ∧ (NewPattern s).1 = Pattern.mk [] []) ∧
    ((stringsSplit s '/').length % 2 = 0 ↔ (NewPattern s).2 = none) ∧
    (stringsSplit "" '/').length = 1 ∧ (NewPattern "").2 ≠ none := by
  refine ⟨?_, (NewPattern_ok_iff s).symm, by decide, by decide⟩
  constructor
  · intro h
    have h2 : (NewPattern s).2 ≠ none := by
      rw [Ne, NewPattern_ok_iff]; omega
    exact ⟨h2, NewPattern_fst_of_error s h2⟩
  · rintro ⟨h, -⟩
    rw [Ne, NewPattern_ok_iff] at h
    omega

/-- C7. `parseResourceFromDescriptor` returns no error if and only if the type string is
non-empty, the pattern list is non-empty, the type string splits at `/` into exactly two
parts, and `NewPattern` accepts every raw pattern string.  Whenever it returns an error,
in particular when a single pattern string is rejected, the resource returned with it is
the zero `Resource`. -/
theorem parseResourceFromDescriptor_ok_iff (d : ResourceDescriptor) :
    ((parseResourceFromDescriptor d).2 = none ↔
      d.Type_ ≠ "" ∧ d.Pattern ≠ [] ∧ (stringsSplit d.Type_ '/').length = 2 ∧
        ∀ s ∈ d.Pattern, (NewPattern s).2 = none) ∧
    ((parseResourceFromDescriptor d).2 ≠ none →
      (parseResourceFromDescriptor d).1 = Resource.zero) ∧
    ((∃ s ∈ d.Pattern, (NewPattern s).2 ≠ none) →
      (parseResourceFromDescriptor d).2 ≠ none ∧
        (parseResourceFromDescriptor d).1 = Resource.zero) := by
  have key : ((parseResourceFromDescriptor d).2 = none ↔
      d.Type_ ≠ "" ∧ d.Pattern ≠ [] ∧ (stringsSplit d.Type_ '/').length = 2 ∧
        ∀ s ∈ d.Pattern, (NewPattern s).2 = none) ∧
    ((parseResourceFromDescriptor d).2 ≠ none →
      (parseResourceFromDescriptor d).1 = Resource.zero) := by
    unfold parseResourceFromDescriptor
    by_cases h1 : d.Type_.length = 0
    · have : d.Type_ = "" := (length_eq_zero_iff _).1 h1
      simp [h1, this]
    · have h1' : d.Type_ ≠ "" := fun e => h1 ((length_eq_zero_iff _).2 e)
      by_cases h2 : d.Pattern.length = 0
      · have : d.Pattern = [] := List.length_eq_zero.1 h2
        simp [h1, this]
      · have h2' : d.Pattern ≠ [] := fun e => h2 (by simp [e])
        rw [if_neg h1, if_neg h2]
        split
        · rename_i a b hs
          have := parsePatternsLoop_spec d.Pattern (Resource.mk a b [])
          simp only [hs, List.length_cons, List.length_nil]
          refine ⟨?_, this.2.2⟩
          rw [this.1]
          simp [h1', h2']
        · rename_i hs
          have hlen : (stringsSplit d.Type_ '/').length ≠ 2 := by
            intro hl
            match hm : stringsSplit d.Type_ '/', hl with
            | [a, b], _ => exact hs a b hm
          simp [hlen]
  refine ⟨key.1, key.2, ?_⟩
  rintro ⟨s, hs, hne⟩
  have : (parseResourceFromDescriptor d).2 ≠ none := by
    intro h
    exact hne ((key.1.1 h).2.2.2 s hs)
  exact ⟨this, key.2 this⟩

theorem parseResourceFromDescriptor_inv (d : ResourceDescriptor) (r : Resource)
    (h : parseResourceFromDescriptor d = (r, none)) :
    d.Type_ ≠ "" ∧ d.Pattern ≠ [] ∧ stringsSplit d.Type_ '/' = [r.ServiceName, r.Type_] ∧
      (∀ s ∈ d.Pattern, (NewPattern s).2 = none) ∧
      r.Patterns = d.Pattern.map fun s => (NewPattern s).1 := by
  unfold parseResourceFromDescriptor at h
  by_cases h1 : d.Type_.length = 0
  · simp [h1] at h
  · have h1' : d.Type_ ≠ "" := fun e => h1 ((length_eq_zero_iff _).2 e)
    by_cases h2 : d.Pattern.length = 0
    · simp [h1, h2] at h
    · have h2' : d.Pattern ≠ [] := fun e => h2 (by simp [e])
      rw [if_neg h1, if_neg h2] at h
      split at h
      · rename_i a b hs
        have hl := parsePatternsLoop_spec d.Pattern (Resource.mk a b [])
        have hnone : (parsePatternsLoop d.Pattern (Resource.mk a b [])).2 = none := by rw [h]
        have hr := hl.2.1 hnone
        rw [h] at hr
        simp only at hr
        subst hr
        exact ⟨h1', h2', hs, hl.1.1 hnone, by simp⟩
      · simp at h

/-- C8, counterexample: the type string `example.com/` is accepted, and the resource
returned has the empty bare type name. -/
theorem parseResourceFromDescriptor_empty_type_name :
    (parseResourceFromDescriptor
        (ResourceDescriptor.mk "example.com/" ["projects/{project}"])).2 = none ∧
      (parseResourceFromDescriptor
        (ResourceDescriptor.mk "example.com/" ["projects/{project}"])).1.Type_ = "" := by
  decide

theorem stringsSplit_two (s a b : String) (h : stringsSplit s '/' = [a, b]) :
    s = a ++ "/" ++ b ∧ '/' ∉ a.data ∧ '/' ∉ b.data := by
  unfold stringsSplit at h
  have hsp := splitOn_spec '/' s.data
  match hs : splitOn '/' s.data, h with
  | [x, y], h =>
    rw [hs] at hsp
    simp at h
    obtain ⟨rfl, rfl⟩ := h
    refine ⟨?_, hsp.1 x (by simp), hsp.1 y (by simp)⟩
    apply String.ext
    have := hsp.2
    simp [List.intercalate] at this
    simp [← this]

/-- C8, amended. Every resource returned without an error comes from a descriptor whose
type string is non-empty and is `ServiceName/Type` with no further `/`; its pattern list is
non-empty, as long as the list of raw pattern strings, and holds the pattern of each raw
string in order.  (The bare type name itself may be empty.) -/
theorem parseResourceFromDescriptor_invariant (d : ResourceDescriptor) (r : Resource)
    (h : parseResourceFromDescriptor d = (r, none)) :
    d.Type_ ≠ "" ∧ d.Type_ = r.ServiceName ++ "/" ++ r.Type_ ∧
      '/' ∉ r.ServiceName.data ∧ '/' ∉ r.Type_.data ∧
      r.Patterns ≠ [] ∧ r.Patterns.length = d.Pattern.length ∧
      r.Patterns = d.Pattern.map fun s => (NewPattern s).1 := by
  obtain ⟨h1, h2, h3, h4, h5⟩ := parseResourceFromDescriptor_inv d r h
  have hsp := stringsSplit_two _ _ _ h3
  refine ⟨h1, hsp.1, hsp.2.1, hsp.2.2, ?_, ?_, h5⟩
  · rw [h5]
    intro e
    exact h2 (List.map_eq_nil_iff.1 e)
  · rw [h5, List.length_map]

/-- C8, amended, at the descriptor of the `LogEntry` example. -/
theorem parseResourceFromDescriptor_invariant_witness :
    ("logging.googleapis.com/LogEntry" : String) ≠ "" ∧
      ("logging.googleapis.com/LogEntry" : String) = "logging.googleapis.com" ++ "/" ++ "LogEntry" ∧
      '/' ∉ "logging.googleapis.com".data ∧ '/' ∉ "LogEntry".data ∧
      [Pattern.mk ["projects", "logEntries"] ["project", "log_entry"]] ≠ [] ∧
      [Pattern.mk ["projects", "logEntries"] ["project", "log_entry"]].length =
        ["projects/{project}/logEntries/{log_entry}"].length ∧
      [Pattern.mk ["projects", "logEntries"] ["project", "log_entry"]] =
        ["projects/{project}/logEntries/{log_entry}"].map fun s => (NewPattern s).1 :=
  parseResourceFromDescriptor_invariant
    (ResourceDescriptor.mk "logging.googleapis.com/LogEntry"
      ["projects/{project}/logEntries/{log_entry}"])
    (Resource.mk "logging.googleapis.com" "LogEntry"
      [Pattern.mk ["projects", "logEntries"] ["project", "log_entry"]])
    (by decide)

/-! ## The pattern grammar -/

theorem trim_braced (cs : List Char)
    (h1 : cs.head?.map braces ≠ some true) (h2 : cs.getLast?.map braces ≠ some true) :
    (('{' :: (cs ++ ['}'])).dropWhile braces).rdropWhile braces = cs := by
  have hb1 : braces '{' = true := by decide
  have hb2 : braces '}' = true := by decide
  rw [List.dropWhile_cons_of_pos hb1]
  cases cs with
  | nil => simp [List.dropWhile, hb2]
  | cons c l =>
    have hc : braces c = false := by simpa using h1
    rw [List.cons_append, List.dropWhile_cons_of_neg (by simp [hc]), ← List.cons_append,
      List.rdropWhile_concat_pos _ _ _ hb2]
    rcases List.eq_nil_or_concat (c :: l) with h | ⟨l2, x, h⟩
    · simp at h
    · rw [h, List.concat_eq_append] at h2 ⊢
      have hx : braces x = false := by simpa using h2
      rw [List.rdropWhile_concat_neg]
      simp [hx]

theorem newPatternLoop_pairs (pairs : List (String × String)) :
    ∀ p : Pattern,
      newPatternLoop
          (pairs.flatMap fun ln => [ln.1, String.mk ('{' :: (ln.2.data ++ ['}']))]) p =
        Pattern.mk (p.collectionIds ++ pairs.map Prod.fst)
          (p.resourceVars ++ pairs.map fun ln =>
            stringsTrim (String.mk ('{' :: (ln.2.data ++ ['}']))) braces) := by
  induction pairs with
  | nil => intro p; simp [newPatternLoop]
  | cons ln rest ih =>
    intro p
    rw [List.flatMap_cons]
    simp only [List.cons_append, List.nil_append]
    rw [newPatternLoop, ih]
    simp

theorem patternText_split (pairs : List (String × String)) (hne : pairs ≠ [])
    (h : ∀ ln ∈ pairs, '/' ∉ ln.1.data ∧ '/' ∉ ln.2.data) :
    splitOn '/' (patternText pairs).data =
      pairs.flatMap fun ln => [ln.1.data, '{' :: (ln.2.data ++ ['}'])] := by
  induction pairs with
  | nil => exact absurd rfl hne
  | cons ln rest ih =>
    obtain ⟨l, n⟩ := ln
    have hl : '/' ∉ l.data := (h (l, n) (by simp)).1
    have hn : '/' ∉ n.data := (h (l, n) (by simp)).2
    have hbr : '/' ∉ '{' :: (n.data ++ ['}']) := by
      simp only [List.mem_cons, List.mem_append, List.mem_singleton, not_or]
      exact ⟨by decide, hn, by decide, by simp⟩
    cases rest with
    | nil =>
      have : (patternText [(l, n)]).data = l.data ++ '/' :: ('{' :: (n.data ++ ['}'])) := by
        simp [patternText]
      rw [this, splitOn_append _ _ _ hl, splitOn_noSep _ _ hbr]
      simp
    | cons ln2 rest2 =>
      have : (patternText ((l, n) :: ln2 :: rest2)).data =
          l.data ++ '/' :: (('{' :: (n.data ++ ['}'])) ++
            '/' :: (patternText (ln2 :: rest2)).data) := by
        simp [patternText]
      rw [this, splitOn_append _ _ _ hl, splitOn_append _ _ _ hbr,
        ih (by simp) (fun x hx => h x (by simp [hx]))]
      simp

/-- C6, counterexample: for the single pair with literal `a` and name `}b` the variable
returned is `b`, not the name. -/
theorem NewPattern_trims_braces_of_name :
    (NewPattern (patternText [("a", "\x7db")])).2 = none ∧
      (NewPattern (patternText [("a", "\x7db")])).1.resourceVars = ["b"] ∧
      (NewPattern (patternText [("a", "\x7db")])).1.resourceVars ≠ ["\x7db"] := by
  decide

/-- C6, amended. For every non-empty list of pairs `(literal_i, name_i)` of strings
without `/`, whose names neither begin nor end with a brace, `NewPattern` accepts
`literal_1/{name_1}/.../literal_N/{name_N}` and returns the literals as `collectionIds` and
the names as `resourceVars`, in order and verbatim. -/
theorem NewPattern_patternText (pairs : List (String × String)) (hne : pairs ≠ [])
    (h : ∀ ln ∈ pairs, '/' ∉ ln.1.data ∧ '/' ∉ ln.2.data ∧ noOuterBrace ln.2) :
    NewPattern (patternText pairs) =
      (Pattern.mk (pairs.map Prod.fst) (pairs.map Prod.snd), none) := by
  have hs : stringsSplit (patternText pairs) '/' =
      pairs.flatMap fun ln => [ln.1, String.mk ('{' :: (ln.2.data ++ ['}']))] := by
    unfold stringsSplit
    rw [patternText_split pairs hne (fun ln hl => ⟨(h ln hl).1, (h ln hl).2.1⟩)]
    simp [List.map_flatMap]
  have hlen : (stringsSplit (patternText pairs) '/').length % 2 = 0 := by
    rw [hs]
    clear hs h hne
    induction pairs with
    | nil => simp
    | cons a t ih => simp [List.flatMap_cons] at ih ⊢; omega
  unfold NewPattern
  simp only [hlen, ne_eq, not_true_eq_false, if_false]
  rw [hs, newPatternLoop_pairs]
  simp only [List.nil_append, Prod.mk.injEq, and_true, Pattern.mk.injEq, true_and]
  apply List.map_congr_left
  intro ln hl
  have hb := (h ln hl).2.2
  unfold stringsTrim
  simp only
  rw [trim_braced _ hb.1 hb.2]

/-- C6, amended, at the two pairs of the `LogEntry` pattern. -/
theorem NewPattern_patternText_witness :
    NewPattern (patternText [("projects", "project"), ("logEntries", "log_entry")]) =
      (Pattern.mk ["projects", "logEntries"] ["project", "log_entry"], none) :=
  NewPattern_patternText [("projects", "project"), ("logEntries", "log_entry")]
    (by decide) (by decide)


/-! ## Field reconciliation -/

theorem empty_append (s : String) : "" ++ s = s := by
  apply String.ext; simp

theorem mem_mapInsert (m : List String) (k x : String) :
    x ∈ mapInsert m k ↔ x ∈ m ∨ x = k := by
  unfold mapInsert
  by_cases h : k ∈ m
  · simp only [h, if_true]
    constructor
    · exact Or.inl
    · rintro (h1 | rfl)
      · exact h1
      · exact h
  · simp [h]

theorem nodup_mapInsert (m : List String) (k : String) (h : m.Nodup) :
    (mapInsert m k).Nodup := by
  unfold mapInsert
  by_cases hk : k ∈ m
  · simpa [hk] using h
  · simp only [hk, if_false]
    rw [List.nodup_append]
    refine ⟨h, by simp, ?_⟩
    intro a ha hb
    simp at hb
    subst hb
    exact hk ha

theorem foldl_mapInsert (fs : List String) :
    ∀ m : List String, m.Nodup →
      (fs.foldl mapInsert m).Nodup ∧ ∀ x, x ∈ fs.foldl mapInsert m ↔ x ∈ m ∨ x ∈ fs := by
  induction fs with
  | nil => intro m h; simp [h]
  | cons f rest ih =>
    intro m h
    have := ih (mapInsert m f) (nodup_mapInsert m f h)
    refine ⟨this.1, ?_⟩
    intro x
    rw [List.foldl_cons, this.2, mem_mapInsert]
    simp only [List.mem_cons]
    tauto

theorem strLess_iff (a b : String) : strLess a b ↔ a < b :=
  String.lt_iff_toList_lt.symm

theorem sortSlice_perm (l : List String) : (sortSlice l).Perm l :=
  List.perm_insertionSort _ l

theorem sortSlice_sorted (l : List String) (h : l.Nodup) :
    (sortSlice l).Sorted (fun a b => a < b) := by
  haveI : IsTotal String (fun a b => ¬ strLess b a) :=
    ⟨fun a b => by
      simp only [strLess_iff]
      rcases le_total a b with h | h
      · exact Or.inl (not_lt.2 h)
      · exact Or.inr (not_lt.2 h)⟩
  haveI : IsTrans String (fun a b => ¬ strLess b a) :=
    ⟨fun a b c => by
      simp only [strLess_iff, not_lt]
      exact le_trans⟩
  have hs : (sortSlice l).Sorted (fun a b => ¬ strLess b a) :=
    List.sorted_insertionSort _ l
  have hn : (sortSlice l).Nodup := (sortSlice_perm l).nodup_iff.2 h
  have := List.Pairwise.and hs hn
  refine this.imp ?_
  intro a b hab
  rw [strLess_iff, not_lt] at hab
  exact lt_of_le_of_ne hab.1 hab.2

theorem Pattern_parentStructFields_some (G : GenEnv) (p : Pattern) (pfx : String)
    (h : p.resourceVars ≠ []) :
    p.parentStructFields G pfx =
      some (p.resourceVars.dropLast.map fun v => pfx ++ G.ToCamel v ++ "Id") := by
  unfold Pattern.parentStructFields
  have : p.resourceVars.length ≠ 0 := fun e => h (List.length_eq_zero.1 e)
  rw [if_neg this, List.dropLast_eq_take]

theorem Pattern_lastStructField_some (G : GenEnv) (p : Pattern) (pfx : String)
    (h : p.resourceVars ≠ []) :
    p.lastStructField G pfx = some (pfx ++ G.ToCamel (p.resourceVars.getLast h) ++ "Id") := by
  unfold Pattern.lastStructField
  rw [List.getLast?_eq_getLast _ h]
  rfl

theorem parentFieldSet_spec (G : GenEnv) (ps : List Pattern)
    (h : ∀ p ∈ ps, p.resourceVars ≠ []) :
    ∀ m : List String, m.Nodup →
      ∃ res, parentFieldSet G ps m = some res ∧ res.Nodup ∧
        ∀ f, f ∈ res ↔
          f ∈ m ∨ ∃ p ∈ ps, ∃ v ∈ p.resourceVars.dropLast, f = G.ToCamel v ++ "Id" := by
  induction ps with
  | nil => intro m hm; exact ⟨m, rfl, hm, by simp⟩
  | cons p rest ih =>
    intro m hm
    have hp := Pattern_parentStructFields_some G p "" (h p (by simp))
    have hf := foldl_mapInsert (p.resourceVars.dropLast.map fun v => "" ++ G.ToCamel v ++ "Id")
      m hm
    obtain ⟨res, hres, hnd, hmem⟩ := ih (fun q hq => h q (by simp [hq])) _ hf.1
    refine ⟨res, ?_, hnd, ?_⟩
    · simp only [parentFieldSet, hp]
      exact hres
    · intro f
      rw [hmem, hf.2]
      simp only [List.mem_map, List.mem_cons, exists_eq_or_imp, empty_append]
      constructor
      · rintro ((h1 | ⟨v, hv, rfl⟩) | h3)
        · exact Or.inl h1
        · exact Or.inr (Or.inl ⟨v, hv, rfl⟩)
        · exact Or.inr (Or.inr h3)
      · rintro (h1 | ⟨v, hv, rfl⟩ | h3)
        · exact Or.inl (Or.inl h1)
        · exact Or.inl (Or.inr ⟨v, hv, rfl⟩)
        · exact Or.inr h3

theorem lastFieldSet_spec (G : GenEnv) (ps : List Pattern)
    (h : ∀ p ∈ ps, p.resourceVars ≠ []) :
    ∀ m : List String, m.Nodup →
      ∃ res, lastFieldSet G ps m = some res ∧ res.Nodup ∧
        ∀ f, f ∈ res ↔
          f ∈ m ∨ ∃ p ∈ ps, ∃ v, p.resourceVars.getLast? = some v ∧
            f = G.ToCamel v ++ "Id" := by
  induction ps with
  | nil => intro m hm; exact ⟨m, rfl, hm, by simp⟩
  | cons p rest ih =>
    intro m hm
    have hne := h p (by simp)
    have hp := Pattern_lastStructField_some G p "" hne
    obtain ⟨res, hres, hnd, hmem⟩ :=
      ih (fun q hq => h q (by simp [hq])) _ (nodup_mapInsert m _ hm)
    refine ⟨res, ?_, hnd, ?_⟩
    · simp only [lastFieldSet, hp]
      exact hres
    · intro f
      rw [hmem, mem_mapInsert]
      simp only [List.mem_cons, exists_eq_or_imp, empty_append,
        List.getLast?_eq_getLast _ hne, Option.some.injEq]
      constructor
      · rintro ((h1 | rfl) | h3)
        · exact Or.inl h1
        · exact Or.inr (Or.inl ⟨_, rfl, rfl⟩)
        · exact Or.inr (Or.inr h3)
      · rintro (h1 | ⟨v, rfl, rfl⟩ | h3)
        · exact Or.inl (Or.inl h1)
        · exact Or.inl (Or.inr rfl)
        · exact Or.inr h3

/-- C9. For a resource whose patterns all have a variable, `parentStructFields()` returns
a strictly increasing list of strings (sorted, without duplicates) whose elements are
exactly the names `ToCamel(v) + "Id"` for the variables `v` of the patterns other than each
pattern's last; in particular it contains every pattern's own `parentStructFields("")`. -/
theorem Resource_parentStructFields_sorted_union (G : GenEnv) (r : Resource)
    (h : ∀ p ∈ r.Patterns, p.resourceVars ≠ []) :
    ∃ fields, r.parentStructFields G = some fields ∧
      fields.Sorted (fun a b => a < b) ∧
      (∀ f, f ∈ fields ↔
        ∃ p ∈ r.Patterns, ∃ v ∈ p.resourceVars.dropLast, f = G.ToCamel v ++ "Id") ∧
      ∀ p ∈ r.Patterns, ∃ fs, p.parentStructFields G "" = some fs ∧ ∀ f ∈ fs, f ∈ fields := by
  obtain ⟨res, hres, hnd, hmem⟩ := parentFieldSet_spec G r.Patterns h [] List.nodup_nil
  have hperm : (sortSlice (G.rangeKeys res)).Perm res :=
    (sortSlice_perm _).trans (G.rangeKeys_perm res)
  have hmem2 : ∀ f, f ∈ sortSlice (G.rangeKeys res) ↔
      ∃ p ∈ r.Patterns, ∃ v ∈ p.resourceVars.dropLast, f = G.ToCamel v ++ "Id" := by
    intro f
    rw [hperm.mem_iff, hmem]
    simp
  refine ⟨sortSlice (G.rangeKeys res), ?_, ?_, hmem2, ?_⟩
  · simp [Resource.parentStructFields, hres]
  · exact sortSlice_sorted _ ((G.rangeKeys_perm res).nodup_iff.2 hnd)
  · intro p hp
    refine ⟨_, Pattern_parentStructFields_some G p "" (h p hp), ?_⟩
    intro f hf
    rw [hmem2]
    simp only [List.mem_map, empty_append] at hf
    obtain ⟨v, hv, rfl⟩ := hf
    exact ⟨p, hp, v, hv, rfl⟩

/-- C9 at the two patterns of the specification: the parent fields are `OrganizationId`
and `ProjectId`, in this order. -/
theorem Resource_parentStructFields_sorted_union_witness :
    (∀ p ∈ logEntry.Patterns, p.resourceVars ≠ []) ∧
      logEntry.parentStructFields goGen = some ["OrganizationId", "ProjectId"] ∧
      ∃ fields, logEntry.parentStructFields goGen = some fields ∧
        fields.Sorted (fun a b => a < b) ∧
        (∀ f, f ∈ fields ↔
          ∃ p ∈ logEntry.Patterns, ∃ v ∈ p.resourceVars.dropLast,
            f = goGen.ToCamel v ++ "Id") ∧
        ∀ p ∈ logEntry.Patterns,
          ∃ fs, p.parentStructFields goGen "" = some fs ∧ ∀ f ∈ fs, f ∈ fields :=
  ⟨by decide, by decide, Resource_parentStructFields_sorted_union goGen logEntry (by decide)⟩

/-- C10. For a resource whose patterns all have a variable, `lastStructFields()` returns a
strictly increasing list (sorted, without duplicates) whose elements are exactly the names
`ToCamel(v) + "Id"` for the last variable `v` of each pattern; every distinct name is kept,
so the length is 1 exactly when there is a pattern and all patterns give the same name. -/
theorem Resource_lastStructFields_sorted_set (G : GenEnv) (r : Resource)
    (h : ∀ p ∈ r.Patterns, p.resourceVars ≠ []) :
    ∃ fields, r.lastStructFields G = some fields ∧
      fields.Sorted (fun a b => a < b) ∧
      (∀ f, f ∈ fields ↔
        ∃ p ∈ r.Patterns, ∃ v, p.resourceVars.getLast? = some v ∧ f = G.ToCamel v ++ "Id") ∧
      (fields.length = 1 ↔
        r.Patterns ≠ [] ∧ ∀ p ∈ r.Patterns, ∀ q ∈ r.Patterns,
          p.lastStructField G "" = q.lastStructField G "") := by
  obtain ⟨res, hres, hnd, hmem⟩ := lastFieldSet_spec G r.Patterns h [] List.nodup_nil
  have hperm : (sortSlice (G.rangeKeys res)).Perm res :=
    (sortSlice_perm _).trans (G.rangeKeys_perm res)
  have hnd2 : (sortSlice (G.rangeKeys res)).Nodup := hperm.nodup_iff.2 hnd
  have hmem2 : ∀ f, f ∈ sortSlice (G.rangeKeys res) ↔
      ∃ p ∈ r.Patterns, ∃ v, p.resourceVars.getLast? = some v ∧ f = G.ToCamel v ++ "Id" := by
    intro f
    rw [hperm.mem_iff, hmem]
    simp
  have hfield : ∀ p ∈ r.Patterns, ∃ v, p.resourceVars.getLast? = some v ∧
      p.lastStructField G "" = some (G.ToCamel v ++ "Id") := by
    intro p hp
    refine ⟨_, List.getLast?_eq_getLast _ (h p hp), ?_⟩
    rw [Pattern_lastStructField_some G p "" (h p hp), empty_append]
  refine ⟨sortSlice (G.rangeKeys res), ?_, ?_, hmem2, ?_⟩
  · simp [Resource.lastStructFields, hres]
  · exact sortSlice_sorted _ ((G.rangeKeys_perm res).nodup_iff.2 hnd)
  · generalize sortSlice (G.rangeKeys res) = l at hnd2 hmem2
    constructor
    · intro hlen
      obtain ⟨a, rfl⟩ := List.length_eq_one.1 hlen
      have hall : ∀ p ∈ r.Patterns, p.lastStructField G "" = some a := by
        intro p hp
        obtain ⟨v, hv, hf⟩ := hfield p hp
        have : G.ToCamel v ++ "Id" ∈ [a] := (hmem2 _).2 ⟨p, hp, v, hv, rfl⟩
        rw [hf, List.mem_singleton.1 this]
      refine ⟨?_, fun p hp q hq => (hall p hp).trans (hall q hq).symm⟩
      intro he
      obtain ⟨p, hp, -⟩ := (hmem2 a).1 (by simp)
      rw [he] at hp
      simp at hp
    · rintro ⟨hne, hsame⟩
      obtain ⟨p, ps, hps⟩ := List.exists_cons_of_ne_nil hne
      have hp : p ∈ r.Patterns := by rw [hps]; simp
      obtain ⟨v, hv, hf⟩ := hfield p hp
      have hall : ∀ f ∈ l, f = G.ToCamel v ++ "Id" := by
        intro f hfl
        obtain ⟨q, hq, w, hw, rfl⟩ := (hmem2 f).1 hfl
        obtain ⟨w2, hw2, hf2⟩ := hfield q hq
        rw [hw] at hw2
        cases hw2
        have := hsame p hp q hq
        rw [hf, hf2] at this
        exact (Option.some.inj this).symm
      have hin : G.ToCamel v ++ "Id" ∈ l := (hmem2 _).2 ⟨p, hp, v, hv, rfl⟩
      cases l with
      | nil => simp at hin
      | cons a t =>
        cases t with
        | nil => rfl
        | cons b t2 =>
          exfalso
          have ha := hall a (by simp)
          have hb := hall b (by simp)
          rw [List.nodup_cons] at hnd2
          exact hnd2.1 (by rw [ha, ← hb]; simp)

/-- C10 at the two patterns of the specification: the only identifier field is
`LogEntryId`. -/
theorem Resource_lastStructFields_sorted_set_witness :
    (∀ p ∈ logEntry.Patterns, p.resourceVars ≠ []) ∧
      logEntry.lastStructFields goGen = some ["LogEntryId"] ∧
      ∃ fields, logEntry.lastStructFields goGen = some fields ∧
        fields.Sorted (fun a b => a < b) ∧
        (∀ f, f ∈ fields ↔
          ∃ p ∈ logEntry.Patterns, ∃ v, p.resourceVars.getLast? = some v ∧
            f = goGen.ToCamel v ++ "Id") ∧
        (fields.length = 1 ↔
          logEntry.Patterns ≠ [] ∧ ∀ p ∈ logEntry.Patterns, ∀ q ∈ logEntry.Patterns,
            p.lastStructField goGen "" = q.lastStructField goGen "") :=
  ⟨by decide, by decide, Resource_lastStructFields_sorted_set goGen logEntry (by decide)⟩

/-! ## The generated parse functions -/

theorem Pattern_code_inv (G : GenEnv) (t : String) (p : Pattern) (pc : PatternCode)
    (h : p.code G t = some pc) :
    p.parentTypeString G = some pc.parentTypeString ∧
      p.parentStructFields G "" = some pc.parentStructFields ∧
      p.lastStructField G "" = some pc.lastStructField ∧
      pc.parentTypeConst = p.parentTypeConst G ∧
      pc.parentRegexString = p.parentRegexString ∧ pc.regexString = p.regexString ∧
      pc.parentFormatString = p.parentFormatString ∧ pc.formatString = p.formatString := by
  unfold Pattern.code at h
  split at h
  · rename_i a b c d h1 h2 h3 h4
    cases h
    exact ⟨h1, h2, h3, rfl, rfl, rfl, rfl, rfl⟩
  · cases h

theorem patternCodes_cons_inv (G : GenEnv) (t : String) (p : Pattern) (ps : List Pattern)
    (pcs : List PatternCode) (h : patternCodes G t (p :: ps) = some pcs) :
    ∃ pc pcs', pcs = pc :: pcs' ∧ p.code G t = some pc ∧ patternCodes G t ps = some pcs' := by
  unfold patternCodes at h
  split at h
  · rename_i pc pcs' h1 h2
    cases h
    exact ⟨pc, pcs', rfl, h1, h2⟩
  · cases h

theorem compileAll_cons_inv (R : RunEnv) (pc : PatternCode) (pcs : List PatternCode)
    (res : List (PatternCode × Regexp × Regexp)) (h : compileAll R (pc :: pcs) = some res) :
    ∃ parentRe re res', res = (pc, parentRe, re) :: res' ∧
      R.MustCompile pc.parentRegexString = some parentRe ∧
      R.MustCompile pc.regexString = some re ∧ compileAll R pcs = some res' := by
  unfold compileAll at h
  split at h
  · rename_i a b c h1 h2 h3
    cases h
    exact ⟨a, b, c, rfl, h1, h2, h3⟩
  · cases h

theorem generateResource_inv (G : GenEnv) (r : Resource) (c : ResourceCode)
    (h : generateResource G r = some c) :
    c.ServiceName = r.ServiceName ∧ c.Type_ = r.Type_ ∧
      r.parentStructFields G = some c.parentStructFields ∧
      r.lastStructFields G = some c.lastStructFields ∧
      patternCodes G r.Type_ r.Patterns = some c.patterns := by
  unfold generateResource at h
  split at h
  · rename_i a b d h1 h2 h3
    cases h
    exact ⟨rfl, rfl, h1, h2, h3⟩
  · cases h

theorem init_inv (R : RunEnv) (c : ResourceCode) (pkg : Package) (h : c.init R = some pkg) :
    pkg.code = c ∧ compileAll R c.patterns = some pkg.regexps := by
  unfold ResourceCode.init at h
  cases hc : compileAll R c.patterns with
  | none => simp [hc] at h
  | some res =>
    simp only [hc, Option.map_some', Option.some.injEq] at h
    subst h
    exact ⟨rfl, rfl⟩

theorem first_match {α β : Type} (f : α → Option β) (ps : List α)
    (h : ∃ p ∈ ps, f p ≠ none) :
    ∃ pre p post m, ps = pre ++ p :: post ∧ (∀ q ∈ pre, f q = none) ∧ f p = some m := by
  induction ps with
  | nil => simp at h
  | cons a rest ih =>
    cases ha : f a with
    | some m => exact ⟨[], a, rest, m, rfl, by simp, ha⟩
    | none =>
      have : ∃ p ∈ rest, f p ≠ none := by
        obtain ⟨p, hp, hne⟩ := h
        rcases List.mem_cons.1 hp with rfl | hp
        · exact absurd ha hne
        · exact ⟨p, hp, hne⟩
      obtain ⟨pre, p, post, m, h1, h2, h3⟩ := ih this
      refine ⟨a :: pre, p, post, m, by simp [h1], ?_, h3⟩
      intro q hq
      rcases List.mem_cons.1 hq with rfl | hq
      · exact ha
      · exact h2 q hq

theorem parseLoop_spec (G : GenEnv) (R : RunEnv) (t : String) (c : ResourceCode) (s : String)
    (ps : List Pattern) :
    ∀ pcs res, patternCodes G t ps = some pcs → compileAll R pcs = some res →
      (∀ pre p post m, ps = pre ++ p :: post → (∀ q ∈ pre, q.find R s = none) →
        p.find R s = some m →
        ∃ pc, p.code G t = some pc ∧
          parseLoop c s res = (pc.rsn m).map fun rec => (rec, none)) ∧
      ((∀ p ∈ ps, p.find R s = none) →
        parseLoop c s res =
          some (Rsn.zero,
            some ("invalid resource name for resource type '" ++ c.Type_ ++
              "' in service '" ++ c.ServiceName ++ "'"))) := by
  induction ps with
  | nil =>
    intro pcs res h1 h2
    simp only [patternCodes, Option.some.injEq] at h1
    subst h1
    simp only [compileAll, Option.some.injEq] at h2
    subst h2
    refine ⟨?_, fun _ => rfl⟩
    intro pre p post m h
    simp at h
  | cons a rest ih =>
    intro pcs res h1 h2
    obtain ⟨pc, pcs', rfl, hpc, hrest⟩ := patternCodes_cons_inv G t a rest pcs h1
    obtain ⟨parentRe, re, res', rfl, hc1, hc2, hc3⟩ := compileAll_cons_inv R pc pcs' res h2
    have hfind : a.find R s = re s := by
      unfold Pattern.find
      rw [← (Pattern_code_inv G t a pc hpc).2.2.2.2.2.1, hc2]
      rfl
    obtain ⟨ihA, ihB⟩ := ih pcs' res' hrest hc3
    refine ⟨?_, ?_⟩
    · intro pre p post m hps hpre hm
      cases pre with
      | nil =>
        simp only [List.nil_append, List.cons.injEq] at hps
        obtain ⟨rfl, rfl⟩ := hps
        refine ⟨pc, hpc, ?_⟩
        rw [hfind] at hm
        simp only [parseLoop, hm]
      | cons q pre' =>
        simp only [List.cons_append, List.cons.injEq] at hps
        obtain ⟨rfl, rfl⟩ := hps
        have hq := hpre a (by simp)
        rw [hfind] at hq
        obtain ⟨pc2, h3, h4⟩ := ihA pre' p post m rfl (fun x hx => hpre x (by simp [hx])) hm
        refine ⟨pc2, h3, ?_⟩
        simp only [parseLoop, hq]
        exact h4
    · intro hall
      have hq := hall a (by simp)
      rw [hfind] at hq
      simp only [parseLoop, hq]
      exact ihB (fun p hp => hall p (by simp [hp]))

/-- C3. The emitted `Parse<T>ResourceName` returns the record built from the earliest
pattern, in declaration order, whose `regexString()` matches the candidate string (whether
or not a later pattern matches too), without an error; and it returns an error exactly
when the `regexString()` of no pattern matches, the record then being the zero record and
the error naming the resource type and the service. -/
theorem ParseResourceName_first_match (G : GenEnv) (R : RunEnv) (r : Resource)
    (c : ResourceCode) (pkg : Package) (s : String)
    (hg : generateResource G r = some c) (hi : c.init R = some pkg) :
    (∀ pre p post m, r.Patterns = pre ++ p :: post → (∀ q ∈ pre, q.find R s = none) →
      p.find R s = some m →
      ∃ pc, p.code G r.Type_ = some pc ∧
        pkg.ParseResourceName s = (pc.rsn m).map fun rec => (rec, none)) ∧
    ((∃ rec err, pkg.ParseResourceName s = some (rec, some err)) ↔
      ∀ p ∈ r.Patterns, p.find R s = none) ∧
    ((∀ p ∈ r.Patterns, p.find R s = none) →
      pkg.ParseResourceName s = some (Rsn.zero, some (invalidResourceName r))) := by
  obtain ⟨hs, ht, -, -, hp⟩ := generateResource_inv G r c hg
  obtain ⟨hcode, hcomp⟩ := init_inv R c pkg hi
  obtain ⟨hA, hB⟩ := parseLoop_spec G R r.Type_ c s r.Patterns c.patterns pkg.regexps hp hcomp
  have hB' : (∀ p ∈ r.Patterns, p.find R s = none) →
      pkg.ParseResourceName s = some (Rsn.zero, some (invalidResourceName r)) := by
    intro hall
    unfold Package.ParseResourceName invalidResourceName
    rw [hcode, hB hall, hs, ht]
  refine ⟨?_, ⟨?_, ?_⟩, hB'⟩
  · intro pre p post m h1 h2 h3
    unfold Package.ParseResourceName
    rw [hcode]
    exact hA pre p post m h1 h2 h3
  · rintro ⟨rec, err, herr⟩
    by_contra hne
    push_neg at hne
    obtain ⟨pre, p, post, m, h1, h2, h3⟩ := first_match (fun p => p.find R s) r.Patterns hne
    obtain ⟨pc, -, h5⟩ := hA pre p post m h1 h2 h3
    unfold Package.ParseResourceName at herr
    rw [hcode, h5] at herr
    cases hr : pc.rsn m with
    | none => simp [hr] at herr
    | some x => simp [hr] at herr
  · intro hall
    exact ⟨_, _, hB' hall⟩

/-- C3 at `folders/abc` and the two patterns of the specification: neither expression
matches, and the result is the error. -/
theorem ParseResourceName_first_match_witness :
    generateResource goGen logEntry = some logEntryCode ∧
      logEntryCode.init goRun = some logEntryPackage ∧
      (∀ p ∈ logEntry.Patterns, p.find goRun "folders/abc" = none) ∧
      logEntryPackage.ParseResourceName "folders/abc" =
        some (Rsn.zero, some (invalidResourceName logEntry)) :=
  ⟨by decide, rfl, by decide,
    (ParseResourceName_first_match goGen goRun logEntry logEntryCode logEntryPackage
      "folders/abc" (by decide) rfl).2.2 (by decide)⟩

/-! ## The records built by the parse functions -/

theorem fieldInits_eq (m : List String) (fields : List String) :
    ∀ i, i + fields.length < m.length →
      fieldInits m fields i = some (fields.zip ((m.drop (i + 1)).take fields.length)) := by
  induction fields with
  | nil => intro i _; simp [fieldInits]
  | cons f rest ih =>
    intro i hi
    simp only [List.length_cons] at hi
    have h1 : i + 1 < m.length := by omega
    have h2 := ih (i + 1) (by omega)
    simp only [fieldInits, List.getElem?_eq_getElem h1, h2, List.length_cons]
    rw [List.drop_eq_getElem_cons h1, List.take_succ_cons, List.zip_cons_cons]

theorem structLit_zip_of_not_mem (fields vals : List String) (f : String) (h : f ∉ fields) :
    structLit (fields.zip vals) f = "" := by
  induction fields generalizing vals with
  | nil => simp [structLit]
  | cons a rest ih =>
    cases vals with
    | nil => simp [structLit]
    | cons v vs =>
      have ha : f ≠ a := fun e => h (by simp [e])
      have hr : f ∉ rest := fun e => h (by simp [e])
      simp only [List.zip_cons_cons, structLit, if_neg ha]
      exact ih vs hr

theorem map_structLit_zip (fields vals : List String) (hnd : fields.Nodup)
    (hlen : fields.length = vals.length) :
    fields.map (structLit (fields.zip vals)) = vals := by
  induction fields generalizing vals with
  | nil =>
    cases vals with
    | nil => rfl
    | cons v vs => simp at hlen
  | cons a rest ih =>
    cases vals with
    | nil => simp at hlen
    | cons v vs =>
      rw [List.nodup_cons] at hnd
      simp only [List.length_cons, Nat.add_right_cancel_iff] at hlen
      simp only [List.zip_cons_cons, List.map_cons, structLit, if_true, List.cons.injEq,
        true_and]
      refine Eq.trans ?_ (ih vs hnd.2 hlen)
      apply List.map_congr_left
      intro f hf
      have : f ≠ a := fun e => hnd.1 (e ▸ hf)
      simp only [if_neg this]
      rfl

theorem structLit_zip_getElem (fields vals : List String) (hnd : fields.Nodup)
    (hlen : fields.length = vals.length) (i : Nat) (hi : i < fields.length) :
    structLit (fields.zip vals) (fields[i]) = vals.get (Fin.mk i (hlen ▸ hi)) := by
  have h := map_structLit_zip fields vals hnd hlen
  have h2 : (fields.map (structLit (fields.zip vals)))[i]? = vals[i]? := by rw [h]
  rw [List.getElem?_map, List.getElem?_eq_getElem hi,
    List.getElem?_eq_getElem (hlen ▸ hi)] at h2
  simpa using h2

theorem patternCodes_mem (G : GenEnv) (t : String) (ps : List Pattern) :
    ∀ pcs, patternCodes G t ps = some pcs →
      ∀ p ∈ ps, ∃ pc ∈ pcs, p.code G t = some pc := by
  induction ps with
  | nil => intro pcs _ p hp; simp at hp
  | cons a rest ih =>
    intro pcs h p hp
    obtain ⟨pc, pcs', rfl, hpc, hrest⟩ := patternCodes_cons_inv G t a rest pcs h
    rcases List.mem_cons.1 hp with rfl | hp
    · exact ⟨pc, by simp, hpc⟩
    · obtain ⟨pc2, h2, h3⟩ := ih pcs' hrest p hp
      exact ⟨pc2, by simp [h2], h3⟩

theorem parentStructFields_length (G : GenEnv) (p : Pattern) (pfx : String)
    (fields : List String) (h : p.parentStructFields G pfx = some fields) :
    p.resourceVars ≠ [] ∧ fields.length = p.resourceVars.length - 1 := by
  unfold Pattern.parentStructFields at h
  by_cases h0 : p.resourceVars.length = 0
  · simp [h0] at h
  · simp only [h0, if_false, Option.some.injEq] at h
    subst h
    refine ⟨fun e => h0 (by simp [e]), ?_⟩
    simp

/-- C4. When the emitted `Parse<T>ResourceName` matches the candidate string against the
pattern `p` (the earliest that matches) and the match holds the matched text and one
capture group for each of the `N` variables of `p`, the parse succeeds with a record in
which the parent field `p.parentStructFields("")[i]` is capture group `i+1` for each
`i < N-1`, the identifier field `p.lastStructField("")` is capture group `N`, the last
one, the discriminator `Type` is the value `p.parentTypeString()` of the constant
`p.parentTypeConst()`, and every other field is empty.  (The parent field names of `p`
are assumed distinct: Go rejects a composite literal that names a field twice.) -/
theorem ParseResourceName_fields (G : GenEnv) (R : RunEnv) (r : Resource)
    (c : ResourceCode) (pkg : Package) (s : String)
    (pre : List Pattern) (p : Pattern) (post : List Pattern) (m : List String)
    (hg : generateResource G r = some c) (hi : c.init R = some pkg)
    (hps : r.Patterns = pre ++ p :: post) (hpre : ∀ q ∈ pre, q.find R s = none)
    (hm : p.find R s = some m) (hlen : m.length = p.resourceVars.length + 1)
    (hnd : ∀ fields, p.parentStructFields G "" = some fields → fields.Nodup) :
    ∃ fields last typeString rec,
      p.parentStructFields G "" = some fields ∧ p.lastStructField G "" = some last ∧
      p.parentTypeString G = some typeString ∧
      pkg.ParseResourceName s = some (rec, none) ∧
      (∀ i, i < p.resourceVars.length - 1 →
        ∃ f v, fields[i]? = some f ∧ m[i + 1]? = some v ∧ rec.Parent.field f = v) ∧
      (∃ v, m[p.resourceVars.length]? = some v ∧ m.getLast? = some v ∧ rec.field last = v) ∧
      rec.Parent.Type_ = typeString ∧
      (∃ pc ∈ c.patterns,
        pc.parentTypeConst = p.parentTypeConst G ∧ pc.parentTypeString = typeString) ∧
      (∀ f, f ∉ fields → rec.Parent.field f = "") ∧ (∀ f, f ≠ last → rec.field f = "") := by
  obtain ⟨-, -, -, -, hp⟩ := generateResource_inv G r c hg
  obtain ⟨hcode, hcomp⟩ := init_inv R c pkg hi
  obtain ⟨hA, -⟩ := parseLoop_spec G R r.Type_ c s r.Patterns c.patterns pkg.regexps hp hcomp
  obtain ⟨pc, hpc, hres⟩ := hA pre p post m hps hpre hm
  obtain ⟨pc', hmem, hpc'⟩ := patternCodes_mem G r.Type_ r.Patterns c.patterns hp p
    (by rw [hps]; simp)
  rw [hpc] at hpc'
  cases hpc'
  obtain ⟨h1, h2, h3, h4, -⟩ := Pattern_code_inv G r.Type_ p pc hpc
  obtain ⟨hne, hfl⟩ := parentStructFields_length G p "" _ h2
  have hN : 0 < p.resourceVars.length := List.length_pos.2 hne
  have hfi := fieldInits_eq m pc.parentStructFields 0 (by omega)
  have hidx : pc.parentStructFields.length + 1 = p.resourceVars.length := by omega
  have hN2 : p.resourceVars.length < m.length := by omega
  have hvl : pc.parentStructFields.length =
      ((m.drop (0 + 1)).take pc.parentStructFields.length).length := by
    simp; omega
  refine ⟨pc.parentStructFields, pc.lastStructField, pc.parentTypeString,
    Rsn.mk (ParentRsn.mk (structLit (pc.parentStructFields.zip
      ((m.drop (0 + 1)).take pc.parentStructFields.length))) pc.parentTypeString)
      (structLit [(pc.lastStructField, m[p.resourceVars.length])]),
    h2, h3, h1, ?_, ?_, ?_, rfl, ⟨pc, hmem, h4, rfl⟩, ?_, ?_⟩
  · unfold Package.ParseResourceName
    rw [hcode, hres]
    simp only [PatternCode.rsn, PatternCode.parentRsn, hfi, hidx, Option.map_some',
      List.getElem?_eq_getElem hN2]
  · intro i hi
    have hi' : i < pc.parentStructFields.length := by omega
    refine ⟨pc.parentStructFields[i], m[i + 1], List.getElem?_eq_getElem hi',
      List.getElem?_eq_getElem (by omega), ?_⟩
    show structLit _ _ = _
    rw [structLit_zip_getElem _ _ (hnd _ h2) hvl i hi']
    simp
  · refine ⟨m[p.resourceVars.length], List.getElem?_eq_getElem hN2, ?_, ?_⟩
    · rw [List.getLast?_eq_getElem?]
      have : m.length - 1 = p.resourceVars.length := by omega
      rw [this, List.getElem?_eq_getElem hN2]
    · simp [structLit]
  · intro f hf
    exact structLit_zip_of_not_mem _ _ f hf
  · intro f hf
    simp [structLit, hf]

/-- C4 at `organizations/abc/logEntries/bef` and the two patterns of the specification:
`LogEntryId` is `bef`, `OrganizationId` is `abc`, `ProjectId` is empty and the
discriminator is the value `organization` of `OrganizationLogEntryParentType`. -/
theorem ParseResourceName_fields_witness :
    (∃ rec, logEntryPackage.ParseResourceName "organizations/abc/logEntries/bef" =
        some (rec, none) ∧
      rec.field "LogEntryId" = "bef" ∧ rec.Parent.field "OrganizationId" = "abc" ∧
      rec.Parent.field "ProjectId" = "" ∧ rec.Parent.Type_ = "organization") ∧
    (Pattern.mk ["organizations", "logEntries"] ["organization", "log_entry"]).parentTypeConst
      goGen = "OrganizationLogEntryParentType" ∧
    ∃ fields last typeString rec,
      (Pattern.mk ["organizations", "logEntries"]
        ["organization", "log_entry"]).parentStructFields goGen "" = some fields ∧
      (Pattern.mk ["organizations", "logEntries"]
        ["organization", "log_entry"]).lastStructField goGen "" = some last ∧
      (Pattern.mk ["organizations", "logEntries"]
        ["organization", "log_entry"]).parentTypeString goGen = some typeString ∧
      logEntryPackage.ParseResourceName "organizations/abc/logEntries/bef" =
        some (rec, none) ∧
      (∀ i, i < 2 - 1 →
        ∃ f v, fields[i]? = some f ∧
          ["organizations/abc/logEntries/bef", "abc", "bef"][i + 1]? = some v ∧
          rec.Parent.field f = v) ∧
      (∃ v, ["organizations/abc/logEntries/bef", "abc", "bef"][2]? = some v ∧
        ["organizations/abc/logEntries/bef", "abc", "bef"].getLast? = some v ∧
        rec.field last = v) ∧
      rec.Parent.Type_ = typeString ∧
      (∃ pc ∈ logEntryCode.patterns,
        pc.parentTypeConst =
          (Pattern.mk ["organizations", "logEntries"]
            ["organization", "log_entry"]).parentTypeConst goGen ∧
        pc.parentTypeString = typeString) ∧
      (∀ f, f ∉ fields → rec.Parent.field f = "") ∧ (∀ f, f ≠ last → rec.field f = "") :=
  ⟨⟨_, rfl, by decide, by decide, by decide, by decide⟩, by decide,
    ParseResourceName_fields goGen goRun logEntry logEntryCode logEntryPackage
      "organizations/abc/logEntries/bef"
      [Pattern.mk ["projects", "logEntries"] ["project", "log_entry"]]
      (Pattern.mk ["organizations", "logEntries"] ["organization", "log_entry"]) []
      ["organizations/abc/logEntries/bef", "abc", "bef"]
      (by decide) rfl rfl (by decide) (by decide) (by decide)
      (by intro fields h; cases h; decide)⟩

/-! ## The string builders, character by character -/

theorem regexPiece_data : ("/([^/]+)" : String).data = ['/', '(', '[', '^', '/', ']', '+', ')'] :=
  rfl

theorem formatPiece_data : ("/%s" : String).data = ['/', '%', 's'] := rfl

theorem slash_data : ("/" : String).data = ['/'] := rfl

theorem joinLoop_succ_data (piece : String) (ids : List String) :
    ∀ (i : Nat) (result : String),
      (joinLoop piece ids (i + 1) result).data = result.data ++ tailChars piece ids := by
  induction ids with
  | nil => intro i result; simp [joinLoop, tailChars]
  | cons c rest ih =>
    intro i result
    rw [joinLoop, ih]
    simp [tailChars, slash_data]

theorem joinLoop_zero_data (piece : String) (c : String) (rest : List String)
    (result : String) :
    (joinLoop piece (c :: rest) 0 result).data =
      result.data ++ (c.data ++ (piece.data ++ tailChars piece rest)) := by
  rw [joinLoop, joinLoop_succ_data]
  simp

theorem parseRegex_slash (rest : List Char) (as : List RegexAtom)
    (h : parseRegex rest = some as) :
    parseRegex ('/' :: rest) = some (RegexAtom.lit '/' :: as) := by
  conv_lhs => unfold parseRegex
  simp [h, regexMeta]

theorem parseRegex_group (rest : List Char) (as : List RegexAtom)
    (h : parseRegex rest = some as) :
    parseRegex ('(' :: '[' :: '^' :: '/' :: ']' :: '+' :: ')' :: rest) =
      some (RegexAtom.group :: as) := by
  conv_lhs => unfold parseRegex
  simp [h]

theorem parseRegex_lits (cs : List Char) (hcs : ∀ ch ∈ cs, ch = '.' ∨ regexMeta ch = false)
    (rest : List Char) (as : List RegexAtom) (h : parseRegex rest = some as) :
    parseRegex (cs ++ rest) = some (litAtoms cs ++ as) := by
  induction cs with
  | nil => simpa [litAtoms] using h
  | cons ch cs ih =>
    have ih' := ih (fun x hx => hcs x (by simp [hx]))
    rw [List.cons_append]
    conv_lhs => unfold parseRegex
    rcases hcs ch (by simp) with rfl | hm
    · simp [ih', litAtoms]
    · have h1 : ch ≠ '(' := by rintro rfl; revert hm; decide
      have h2 : ch ≠ '^' := by rintro rfl; revert hm; decide
      have h3 : ch ≠ '$' := by rintro rfl; revert hm; decide
      by_cases h4 : ch = '.'
      · subst h4; simp [ih', litAtoms]
      · simp [h1, h2, h3, h4, hm, ih', litAtoms]

theorem parseRegex_tail (ids : List String)
    (h : ∀ c ∈ ids, ∀ ch ∈ c.data, ch = '.' ∨ regexMeta ch = false) :
    parseRegex (tailChars "/([^/]+)" ids ++ ['$']) = some (tailAtoms ids) := by
  induction ids with
  | nil =>
    simp only [tailChars, List.flatMap_nil, List.nil_append, tailAtoms]
    decide
  | cons c rest ih =>
    have ih' := ih (fun x hx => h x (by simp [hx]))
    have hc := h c (by simp)
    have : tailChars "/([^/]+)" (c :: rest) ++ ['$'] =
        '/' :: (c.data ++ ('/' :: '(' :: '[' :: '^' :: '/' :: ']' :: '+' :: ')' ::
          (tailChars "/([^/]+)" rest ++ ['$']))) := by
      simp [tailChars, regexPiece_data]
    rw [this, tailAtoms]
    exact parseRegex_slash _ _
      (parseRegex_lits _ hc _ _ (parseRegex_slash _ _ (parseRegex_group _ _ ih')))

theorem regexString_parse (ids : List String)
    (h : ∀ c ∈ ids, ∀ ch ∈ c.data, ch = '.' ∨ regexMeta ch = false) :
    parseRegex (joinLoop "/([^/]+)" ids 0 "^" ++ "$").data = some (allAtoms ids) := by
  cases ids with
  | nil => decide
  | cons c rest =>
    have ht := parseRegex_tail rest (fun x hx => h x (by simp [hx]))
    have hc := h c (by simp)
    have : (joinLoop "/([^/]+)" (c :: rest) 0 "^" ++ "$").data =
        '^' :: (c.data ++ ('/' :: '(' :: '[' :: '^' :: '/' :: ']' :: '+' :: ')' ::
          (tailChars "/([^/]+)" rest ++ ['$']))) := by
      rw [String.data_append, joinLoop_zero_data]
      simp [regexPiece_data]
    rw [this, allAtoms]
    have h2 := parseRegex_lits _ hc _ _ (parseRegex_slash _ _ (parseRegex_group _ _ ht))
    conv_lhs => unfold parseRegex
    simp [h2]

theorem sprintfLoop_copy (cs : List Char) (hcs : ∀ ch ∈ cs, ch ≠ '%') (rest : List Char)
    (args : List String) (out : List Char) (h : sprintfLoop rest args = some out) :
    sprintfLoop (cs ++ rest) args = some (cs ++ out) := by
  induction cs with
  | nil => simpa using h
  | cons ch cs ih =>
    have ih' := ih (fun x hx => hcs x (by simp [hx]))
    have hne : ch ≠ '%' := hcs ch (by simp)
    rw [List.cons_append]
    conv_lhs => unfold sprintfLoop
    simp [hne, ih']

theorem sprintfLoop_verb (rest : List Char) (a : String) (args : List String)
    (out : List Char) (h : sprintfLoop rest args = some out) :
    sprintfLoop ('%' :: 's' :: rest) (a :: args) = some (a.data ++ out) := by
  conv_lhs => unfold sprintfLoop
  simp [h]

theorem sprintfLoop_slash (rest : List Char) (args : List String)
    (out : List Char) (h : sprintfLoop rest args = some out) :
    sprintfLoop ('/' :: rest) args = some ('/' :: out) :=
  sprintfLoop_copy ['/'] (by decide) rest args out h

theorem sprintfLoop_tail (ids : List String) (h : ∀ c ∈ ids, ∀ ch ∈ c.data, ch ≠ '%') :
    ∀ vals : List String, vals.length = ids.length →
      sprintfLoop (tailChars "/%s" ids) vals = some (tailText ids vals) := by
  induction ids with
  | nil =>
    intro vals hl
    have : vals = [] := List.length_eq_zero.1 hl
    subst this
    simp [tailChars, tailText, sprintfLoop]
  | cons c rest ih =>
    intro vals hl
    cases vals with
    | nil => simp at hl
    | cons v vs =>
      have ih' := ih (fun x hx => h x (by simp [hx])) vs (by simpa using hl)
      have : tailChars "/%s" (c :: rest) =
          '/' :: (c.data ++ ('/' :: '%' :: 's' :: tailChars "/%s" rest)) := by
        simp [tailChars, formatPiece_data]
      rw [this, tailText]
      exact sprintfLoop_slash _ _ _
        (sprintfLoop_copy _ (h c (by simp)) _ _ _
          (sprintfLoop_slash _ _ _ (sprintfLoop_verb _ _ _ _ ih')))

theorem formatString_sprintf (ids : List String) (h : ∀ c ∈ ids, ∀ ch ∈ c.data, ch ≠ '%')
    (vals : List String) (hl : vals.length = ids.length) :
    sprintfLoop (joinLoop "/%s" ids 0 "").data vals = some (allText ids vals) := by
  cases ids with
  | nil =>
    have : vals = [] := List.length_eq_zero.1 hl
    subst this
    simp [joinLoop, allText, sprintfLoop]
  | cons c rest =>
    cases vals with
    | nil => simp at hl
    | cons v vs =>
      have ht := sprintfLoop_tail rest (fun x hx => h x (by simp [hx])) vs (by simpa using hl)
      have : (joinLoop "/%s" (c :: rest) 0 "").data =
          c.data ++ ('/' :: '%' :: 's' :: tailChars "/%s" rest) := by
        rw [joinLoop_zero_data]
        simp [formatPiece_data]
      rw [this, allText]
      exact sprintfLoop_copy _ (h c (by simp)) _ _ _
        (sprintfLoop_slash _ _ _ (sprintfLoop_verb _ _ _ _ ht))

/-! ## Formatting, then matching -/

theorem matchHere_lit_cons (c : Char) (rest : List RegexAtom) (b : Bool) (xs w : List Char)
    (gs : List (List Char)) (h : matchHere rest false xs = some (w, gs)) :
    matchHere (RegexAtom.lit c :: rest) b (c :: xs) = some (c :: w, gs) := by
  simp [matchHere, h]

theorem matchHere_lits (cs : List Char) (rest : List RegexAtom) (xs w : List Char)
    (gs : List (List Char)) (h : matchHere rest false xs = some (w, gs)) :
    ∀ b, matchHere (litAtoms cs ++ RegexAtom.lit '/' :: rest) b (cs ++ '/' :: xs) =
      some (cs ++ '/' :: w, gs) := by
  induction cs with
  | nil => intro b; simpa [litAtoms] using matchHere_lit_cons '/' rest b xs w gs h
  | cons ch cs ih =>
    intro b
    have ih' := ih false
    by_cases hd : ch = '.'
    · subst hd
      simp only [litAtoms, List.map_cons, if_true, List.cons_append] at ih' ⊢
      simp [matchHere, ih']
    · simp only [litAtoms, List.map_cons, if_neg hd, List.cons_append] at ih' ⊢
      simp [matchHere, ih']

theorem takeWhile_value (v ys : List Char) (hv : '/' ∉ v)
    (hys : ys = [] ∨ ∃ t, ys = '/' :: t) :
    (v ++ ys).takeWhile (· ≠ '/') = v := by
  induction v with
  | nil =>
    rcases hys with rfl | ⟨t, rfl⟩
    · simp
    · simp
  | cons c cs ih =>
    have hc : c ≠ '/' := fun e => hv (by simp [e])
    have hcs : '/' ∉ cs := fun e => hv (by simp [e])
    have := ih hcs
    rw [List.cons_append, List.takeWhile_cons_of_pos (by simpa using hc), this]

theorem matchHere_group (rest : List RegexAtom) (b : Bool) (v ys w : List Char)
    (gs : List (List Char)) (hv : v ≠ []) (hs : '/' ∉ v)
    (hys : ys = [] ∨ ∃ t, ys = '/' :: t) (h : matchHere rest false ys = some (w, gs)) :
    matchHere (RegexAtom.group :: rest) b (v ++ ys) = some (v ++ w, v :: gs) := by
  rw [matchHere, takeWhile_value v ys hs hys]
  obtain ⟨n, hn⟩ : ∃ n, v.length = n + 1 :=
    ⟨v.length - 1, by have := List.length_pos.2 hv; omega⟩
  rw [hn, groupTry, List.drop_left' hn, h]
  simp only
  rw [List.take_left' hn]

theorem tailText_shape (ids vals : List String) :
    tailText ids vals = [] ∨ ∃ t, tailText ids vals = '/' :: t := by
  cases ids with
  | nil => left; simp [tailText]
  | cons c rest =>
    cases vals with
    | nil => left; simp [tailText]
    | cons v vs => right; exact ⟨_, rfl⟩

theorem matchHere_tail (ids : List String) :
    ∀ vals : List String, vals.length = ids.length →
      (∀ v ∈ vals, v ≠ "" ∧ '/' ∉ v.data) →
      matchHere (tailAtoms ids) false (tailText ids vals) =
        some (tailText ids vals, vals.map String.data) := by
  induction ids with
  | nil =>
    intro vals hl _
    have : vals = [] := List.length_eq_zero.1 hl
    subst this
    simp [tailAtoms, tailText, matchHere]
  | cons c rest ih =>
    intro vals hl hv
    cases vals with
    | nil => simp at hl
    | cons v vs =>
      have ih' := ih vs (by simpa using hl) (fun x hx => hv x (by simp [hx]))
      have hvv := hv v (by simp)
      have hne : v.data ≠ [] := fun e => hvv.1 (String.ext (by simpa using e))
      rw [tailAtoms, tailText, List.map_cons]
      exact matchHere_lit_cons '/' _ false _ _ _
        (matchHere_lits c.data _ _ _ _
          (matchHere_group _ false v.data _ _ _ hne hvv.2 (tailText_shape rest vs) ih') false)

theorem matchHere_all (ids vals : List String) (hl : vals.length = ids.length)
    (hv : ∀ v ∈ vals, v ≠ "" ∧ '/' ∉ v.data) :
    matchHere (allAtoms ids) true (allText ids vals) =
      some (allText ids vals, vals.map String.data) := by
  cases ids with
  | nil =>
    have : vals = [] := List.length_eq_zero.1 hl
    subst this
    simp [allAtoms, allText, matchHere]
  | cons c rest =>
    cases vals with
    | nil => simp at hl
    | cons v vs =>
      have ht := matchHere_tail rest vs (by simpa using hl) (fun x hx => hv x (by simp [hx]))
      have hvv := hv v (by simp)
      have hne : v.data ≠ [] := fun e => hvv.1 (String.ext (by simpa using e))
      rw [allAtoms, allText, List.map_cons, matchHere]
      simp only [if_true]
      exact matchHere_lits c.data _ _ _ _
        (matchHere_group _ false v.data _ _ _ hne hvv.2 (tailText_shape rest vs) ht) true

theorem findFrom_of_matchHere (atoms : List RegexAtom) (b : Bool) (xs : List Char)
    (r : List Char × List (List Char)) (h : matchHere atoms b xs = some r) :
    findFrom atoms b xs = some r := by
  cases xs with
  | nil => simpa [findFrom] using h
  | cons x xs => simp [findFrom, h]

theorem newPatternLoop_length_aux (n : Nat) :
    ∀ (l : List String) (p : Pattern), l.length ≤ n →
      p.collectionIds.length = p.resourceVars.length →
      (newPatternLoop l p).collectionIds.length = (newPatternLoop l p).resourceVars.length ∧
      (newPatternLoop l p).collectionIds.length = p.collectionIds.length + l.length / 2 := by
  induction n with
  | zero =>
    intro l p hl hp
    have : l = [] := List.length_eq_zero.1 (by omega)
    subst this
    exact ⟨by simpa [newPatternLoop] using hp, by simp [newPatternLoop]⟩
  | succ n ih =>
    intro l p hl hp
    match l, hl with
    | [], _ => exact ⟨by simpa [newPatternLoop] using hp, by simp [newPatternLoop]⟩
    | [a], _ => exact ⟨by simpa [newPatternLoop] using hp, by simp [newPatternLoop]⟩
    | a :: b :: rest, hl =>
      simp only [List.length_cons] at hl
      have := ih rest (Pattern.mk (p.collectionIds ++ [a])
        (p.resourceVars ++ [stringsTrim b braces])) (by omega) (by simp [hp])
      simp only [newPatternLoop, List.length_cons]
      refine ⟨this.1, ?_⟩
      rw [this.2]
      simp only [List.length_append, List.length_singleton]
      omega

theorem newPatternLoop_length (l : List String) (p : Pattern)
    (hp : p.collectionIds.length = p.resourceVars.length) :
    (newPatternLoop l p).collectionIds.length = (newPatternLoop l p).resourceVars.length ∧
      (newPatternLoop l p).collectionIds.length = p.collectionIds.length + l.length / 2 :=
  newPatternLoop_length_aux l.length l p (le_refl _) hp

theorem NewPattern_lengths (s : String) (p : Pattern) (h : NewPattern s = (p, none)) :
    p.collectionIds.length = p.resourceVars.length ∧ 0 < p.resourceVars.length ∧
      p.collectionIds.length = (stringsSplit s '/').length / 2 := by
  have hok : (stringsSplit s '/').length % 2 = 0 := by
    rw [← NewPattern_ok_iff, h]
  have hne : stringsSplit s '/' ≠ [] := by
    unfold stringsSplit
    intro e
    exact splitOn_ne_nil '/' s.data (List.map_eq_nil_iff.1 e)
  have hpos : 0 < (stringsSplit s '/').length := List.length_pos.2 hne
  have hp : p = newPatternLoop (stringsSplit s '/') (Pattern.mk [] []) := by
    unfold NewPattern at h
    simp only [hok, ne_eq, not_true_eq_false, if_false, Prod.mk.injEq, and_true] at h
    exact h.symm
  have := newPatternLoop_length (stringsSplit s '/') (Pattern.mk [] []) rfl
  rw [← hp] at this
  refine ⟨this.1, ?_, by simpa using this.2⟩
  rw [← this.1, this.2]
  simp only [List.length_nil, zero_add]
  omega

theorem format_then_match (ids vals : List String)
    (hlit : ∀ c ∈ ids, ∀ ch ∈ c.data, litOk ch) (hlen : vals.length = ids.length)
    (hvals : ∀ v ∈ vals, v ≠ "" ∧ '/' ∉ v.data) :
    ∃ t re, goSprintf (joinLoop "/%s" ids 0 "") vals = some t ∧
      goMustCompile (joinLoop "/([^/]+)" ids 0 "^" ++ "$") = some re ∧
      re t = some (t :: vals) := by
  have h1 := formatString_sprintf ids (fun c hc ch hch => (hlit c hc ch hch).2) vals hlen
  have h2 := regexString_parse ids (fun c hc ch hch => (hlit c hc ch hch).1)
  have h3 := findFrom_of_matchHere _ _ _ _ (matchHere_all ids vals hlen hvals)
  refine ⟨String.mk (allText ids vals),
    (fun s => (findFrom (allAtoms ids) true s.data).map
      fun (w, gs) => String.mk w :: gs.map String.mk), ?_, ?_, ?_⟩
  · simp [goSprintf, h1]
  · simp only [goMustCompile, h2, Option.map_some']
  · simp only [h3, Option.map_some', List.map_map, Option.some.injEq, List.cons.injEq,
      true_and]
    conv_rhs => rw [← List.map_id vals]
    apply List.map_congr_left
    intro v _
    rfl

/-- C1, counterexample: the pattern `projects/{project}` with the empty value formats to
`projects/`, which its expression `^projects/([^/]+)$` does not match; and the pattern
`us$/{id}` with the value `abc` formats to `us$/abc`, which its expression
`^us$/([^/]+)$` does not match, the `$` of the collection identifier standing for the end
of the text. -/
theorem roundtrip_fails_on_empty_value :
    (NewPattern "projects/{project}" = (Pattern.mk ["projects"] ["project"], none) ∧
      '/' ∉ ("" : String).data ∧
      goRun.Sprintf (Pattern.mk ["projects"] ["project"]).formatString [""] =
        some "projects/" ∧
      (goRun.MustCompile (Pattern.mk ["projects"] ["project"]).regexString).isSome = true ∧
      (Pattern.mk ["projects"] ["project"]).find goRun "projects/" = none) ∧
    (NewPattern "us$/{id}" = (Pattern.mk ["us$"] ["id"], none) ∧
      '/' ∉ ("abc" : String).data ∧
      goRun.Sprintf (Pattern.mk ["us$"] ["id"]).formatString ["abc"] = some "us$/abc" ∧
      (goRun.MustCompile (Pattern.mk ["us$"] ["id"]).regexString).isSome = true ∧
      (Pattern.mk ["us$"] ["id"]).find goRun "us$/abc" = none) := by
  decide

/-- C1, amended. For every pattern string accepted by `NewPattern` (an even number, at
least 2, of segments) whose collection identifiers consist of characters that stand for
themselves in a regular expression or are `.`, and hold no `%`, and for every list of as
many values as the pattern has variables, each non-empty and without `/`: substituting the
values into `formatString()` gives a string that `regexString()` matches, the match being
the whole string followed by the values in order as its capture groups. -/
theorem format_then_match_roundtrip (s : String) (p : Pattern) (vals : List String)
    (hp : NewPattern s = (p, none))
    (hlit : ∀ c ∈ p.collectionIds, ∀ ch ∈ c.data, litOk ch)
    (hlen : vals.length = p.resourceVars.length)
    (hvals : ∀ v ∈ vals, v ≠ "" ∧ '/' ∉ v.data) :
    (stringsSplit s '/').length % 2 = 0 ∧ 2 ≤ (stringsSplit s '/').length ∧
      ∃ t re, goRun.Sprintf p.formatString vals = some t ∧
        goRun.MustCompile p.regexString = some re ∧ re t = some (t :: vals) := by
  have hl := NewPattern_lengths s p hp
  have hok : (stringsSplit s '/').length % 2 = 0 := by
    rw [← NewPattern_ok_iff, hp]
  refine ⟨hok, by omega, ?_⟩
  exact format_then_match p.collectionIds vals hlit (by omega) hvals

/-- C1, amended, at the `LogEntry` pattern and the values `abc`, `bef`. -/
theorem format_then_match_roundtrip_witness :
    (stringsSplit "organizations/{organization}/logEntries/{log_entry}" '/').length % 2 = 0 ∧
      2 ≤ (stringsSplit "organizations/{organization}/logEntries/{log_entry}" '/').length ∧
      ∃ t re,
        goRun.Sprintf
            (Pattern.mk ["organizations", "logEntries"]
              ["organization", "log_entry"]).formatString ["abc", "bef"] = some t ∧
          goRun.MustCompile
            (Pattern.mk ["organizations", "logEntries"]
              ["organization", "log_entry"]).regexString = some re ∧
          re t = some (t :: ["abc", "bef"]) :=
  format_then_match_roundtrip "organizations/{organization}/logEntries/{log_entry}"
    (Pattern.mk ["organizations", "logEntries"] ["organization", "log_entry"]) ["abc", "bef"]
    (by decide) (by decide) (by decide) (by decide)

/-! ## Matching, then formatting -/

theorem matchHere_lit_inv (c : Char) (rest : List RegexAtom) (b : Bool) (xs w : List Char)
    (gs : List (List Char)) (h : matchHere (RegexAtom.lit c :: rest) b xs = some (w, gs)) :
    ∃ ys w', xs = c :: ys ∧ matchHere rest false ys = some (w', gs) ∧ w = c :: w' := by
  cases xs with
  | nil => simp [matchHere] at h
  | cons x ys =>
    rw [matchHere] at h
    by_cases hx : x = c
    · subst hx
      simp only [if_true] at h
      cases hm : matchHere rest false ys with
      | none => simp [hm] at h
      | some r =>
        obtain ⟨w', gs'⟩ := r
        simp only [hm, Option.map_some', Option.some.injEq, Prod.mk.injEq] at h
        obtain ⟨rfl, rfl⟩ := h
        exact ⟨ys, w', rfl, hm, rfl⟩
    · simp [hx] at h

theorem matchHere_lits_inv (cs : List Char) (hcs : ∀ ch ∈ cs, regexMeta ch = false)
    (rest : List RegexAtom) :
    ∀ (b : Bool) (xs w : List Char) (gs : List (List Char)),
      matchHere (litAtoms cs ++ RegexAtom.lit '/' :: rest) b xs = some (w, gs) →
      ∃ ys w', xs = cs ++ '/' :: ys ∧ matchHere rest false ys = some (w', gs) ∧
        w = cs ++ '/' :: w' := by
  induction cs with
  | nil =>
    intro b xs w gs h
    simpa [litAtoms] using matchHere_lit_inv '/' rest b xs w gs (by simpa [litAtoms] using h)
  | cons ch cs ih =>
    intro b xs w gs h
    have hd : ch ≠ '.' := by
      rintro rfl
      exact absurd (hcs '.' (by simp)) (by decide)
    have h' : matchHere (RegexAtom.lit ch :: (litAtoms cs ++ RegexAtom.lit '/' :: rest)) b xs =
        some (w, gs) := by
      simpa [litAtoms, hd] using h
    obtain ⟨ys, w1, rfl, h1, rfl⟩ := matchHere_lit_inv ch _ b xs w gs h'
    obtain ⟨zs, w2, rfl, h2, rfl⟩ := ih (fun x hx => hcs x (by simp [hx])) false ys w1 gs h1
    exact ⟨zs, w2, by simp, h2, by simp⟩

theorem groupTry_inv (k : List Char → Option (List Char × List (List Char)))
    (xs : List Char) :
    ∀ (n : Nat) (w : List Char) (gs : List (List Char)), groupTry k xs n = some (w, gs) →
      ∃ j w' gs', 0 < j ∧ j ≤ n ∧ k (xs.drop j) = some (w', gs') ∧ w = xs.take j ++ w' ∧
        gs = xs.take j :: gs' := by
  intro n
  induction n with
  | zero => intro w gs h; simp [groupTry] at h
  | succ n ih =>
    intro w gs h
    rw [groupTry] at h
    cases hk : k (xs.drop (n + 1)) with
    | none =>
      simp only [hk] at h
      obtain ⟨j, w', gs', h1, h2, h3, h4, h5⟩ := ih w gs h
      exact ⟨j, w', gs', h1, by omega, h3, h4, h5⟩
    | some r =>
      obtain ⟨w', gs'⟩ := r
      simp only [hk, Option.some.injEq, Prod.mk.injEq] at h
      exact ⟨n + 1, w', gs', by omega, le_refl _, hk, h.1.symm, h.2.symm⟩

theorem matchHere_group_inv (rest : List RegexAtom) (b : Bool) (xs w : List Char)
    (gs : List (List Char)) (h : matchHere (RegexAtom.group :: rest) b xs = some (w, gs)) :
    ∃ j w' gs', 0 < j ∧ j ≤ (xs.takeWhile (· ≠ '/')).length ∧
      matchHere rest false (xs.drop j) = some (w', gs') ∧ w = xs.take j ++ w' ∧
      gs = xs.take j :: gs' := by
  rw [matchHere] at h
  exact groupTry_inv _ xs _ w gs h

theorem matchHere_tail_inv (ids : List String)
    (hids : ∀ c ∈ ids, ∀ ch ∈ c.data, plainChar ch) :
    ∀ (b : Bool) (xs w : List Char) (gs : List (List Char)),
      matchHere (tailAtoms ids) b xs = some (w, gs) →
      w = xs ∧ gs.length = ids.length ∧
        sprintfLoop (tailChars "/%s" ids) (gs.map String.mk) = some xs := by
  induction ids with
  | nil =>
    intro b xs w gs h
    rw [tailAtoms, matchHere] at h
    by_cases hx : xs = []
    · subst hx
      simp only [if_true, matchHere, Option.some.injEq, Prod.mk.injEq] at h
      obtain ⟨rfl, rfl⟩ := h
      simp [tailChars, sprintfLoop]
    · simp [hx] at h
  | cons c rest ih =>
    intro b xs w gs h
    rw [tailAtoms] at h
    obtain ⟨ys, w1, rfl, h1, rfl⟩ := matchHere_lit_inv '/' _ b xs w gs h
    obtain ⟨zs, w2, rfl, h2, rfl⟩ :=
      matchHere_lits_inv c.data (fun ch hch => (hids c (by simp) ch hch).1) _ false ys w1 gs h1
    obtain ⟨j, w3, gs3, -, -, h3, rfl, rfl⟩ := matchHere_group_inv _ false zs w2 gs h2
    obtain ⟨rfl, hl, hs⟩ := ih (fun x hx => hids x (by simp [hx])) false _ w3 gs3 h3
    refine ⟨by simp, by simp [hl], ?_⟩
    have : tailChars "/%s" (c :: rest) =
        '/' :: (c.data ++ ('/' :: '%' :: 's' :: tailChars "/%s" rest)) := by
      simp [tailChars, formatPiece_data]
    rw [this, List.map_cons]
    have := sprintfLoop_slash _ _ _
      (sprintfLoop_copy _ (fun ch hch => (hids c (by simp) ch hch).2) _ _ _
        (sprintfLoop_slash _ _ _ (sprintfLoop_verb _ (String.mk (List.take j zs)) _ _ hs)))
    simpa using this

theorem matchHere_all_inv (ids : List String)
    (hids : ∀ c ∈ ids, ∀ ch ∈ c.data, plainChar ch) (xs w : List Char)
    (gs : List (List Char)) (h : matchHere (allAtoms ids) true xs = some (w, gs)) :
    w = xs ∧ gs.length = ids.length ∧
      sprintfLoop (joinLoop "/%s" ids 0 "").data (gs.map String.mk) = some xs := by
  cases ids with
  | nil =>
    rw [allAtoms, matchHere] at h
    simp only [if_true] at h
    rw [matchHere] at h
    by_cases hx : xs = []
    · subst hx
      simp only [if_true, matchHere, Option.some.injEq, Prod.mk.injEq] at h
      obtain ⟨rfl, rfl⟩ := h
      simp [joinLoop, sprintfLoop]
    · simp [hx] at h
  | cons c rest =>
    rw [allAtoms, matchHere] at h
    simp only [if_true] at h
    obtain ⟨zs, w2, rfl, h2, rfl⟩ :=
      matchHere_lits_inv c.data (fun ch hch => (hids c (by simp) ch hch).1) _ true xs w gs h
    obtain ⟨j, w3, gs3, -, -, h3, rfl, rfl⟩ := matchHere_group_inv _ false zs w2 gs h2
    obtain ⟨rfl, hl, hs⟩ :=
      matchHere_tail_inv rest (fun x hx => hids x (by simp [hx])) false _ w3 gs3 h3
    refine ⟨by simp, by simp [hl], ?_⟩
    have : (joinLoop "/%s" (c :: rest) 0 "").data =
        c.data ++ ('/' :: '%' :: 's' :: tailChars "/%s" rest) := by
      rw [joinLoop_zero_data]
      simp [formatPiece_data]
    rw [this, List.map_cons]
    have := sprintfLoop_copy _ (fun ch hch => (hids c (by simp) ch hch).2) _ _ _
      (sprintfLoop_slash _ _ _ (sprintfLoop_verb _ (String.mk (List.take j zs)) _ _ hs))
    simpa using this

theorem findFrom_bot_false (as : List RegexAtom) :
    ∀ xs, findFrom (RegexAtom.bot :: as) false xs = none := by
  intro xs
  induction xs with
  | nil => simp [findFrom, matchHere]
  | cons x xs ih => simp [findFrom, matchHere, ih]

theorem findFrom_bot_true (as : List RegexAtom) (xs : List Char) :
    findFrom (RegexAtom.bot :: as) true xs = matchHere (RegexAtom.bot :: as) true xs := by
  cases xs with
  | nil => simp [findFrom]
  | cons x xs =>
    rw [findFrom]
    cases h : matchHere (RegexAtom.bot :: as) true (x :: xs) with
    | none => simp [findFrom_bot_false]
    | some r => rfl

theorem allAtoms_bot (ids : List String) : ∃ as, allAtoms ids = RegexAtom.bot :: as := by
  cases ids with
  | nil => exact ⟨_, rfl⟩
  | cons c rest => exact ⟨_, rfl⟩

theorem match_then_format (ids : List String)
    (hids : ∀ c ∈ ids, ∀ ch ∈ c.data, plainChar ch) :
    ∃ re, goMustCompile (joinLoop "/([^/]+)" ids 0 "^" ++ "$") = some re ∧
      ∀ s m, re s = some m →
        ∃ gs, m = s :: gs ∧ gs.length = ids.length ∧
          goSprintf (joinLoop "/%s" ids 0 "") gs = some s := by
  have h2 := regexString_parse ids (fun c hc ch hch => Or.inr (hids c hc ch hch).1)
  refine ⟨(fun s => (findFrom (allAtoms ids) true s.data).map
      fun (w, gs) => String.mk w :: gs.map String.mk), ?_, ?_⟩
  · simp only [goMustCompile, h2, Option.map_some']
  · intro s m hm
    obtain ⟨as, has⟩ := allAtoms_bot ids
    cases hf : findFrom (allAtoms ids) true s.data with
    | none => simp [hf] at hm
    | some r =>
      obtain ⟨w, gs⟩ := r
      simp only [hf, Option.map_some', Option.some.injEq] at hm
      have hmh : matchHere (allAtoms ids) true s.data = some (w, gs) := by
        rw [has] at hf ⊢
        rw [← findFrom_bot_true]
        exact hf
      obtain ⟨rfl, hl, hs⟩ := matchHere_all_inv ids hids s.data w gs hmh
      refine ⟨gs.map String.mk, hm.symm, by simp [hl], ?_⟩
      simp [goSprintf, hs]

/-! ## Parsing, then formatting -/

theorem parseLoop_inv (c : ResourceCode) (s : String) (rec : Rsn) :
    ∀ res : List (PatternCode × Regexp × Regexp), parseLoop c s res = some (rec, none) →
      ∃ x ∈ res, ∃ m, x.2.2 s = some m ∧ x.1.rsn m = some rec := by
  intro res
  induction res with
  | nil => intro h; simp [parseLoop] at h
  | cons x rest ih =>
    intro h
    obtain ⟨pc, parentRe, re⟩ := x
    rw [parseLoop] at h
    cases hm : re s with
    | some m =>
      simp only [hm] at h
      cases hr : pc.rsn m with
      | none => simp [hr] at h
      | some r0 =>
        simp only [hr, Option.map_some', Option.some.injEq, Prod.mk.injEq, and_true] at h
        subst h
        exact ⟨(pc, parentRe, re), by simp, m, hm, hr⟩
    | none =>
      simp only [hm] at h
      obtain ⟨x, hx, hres⟩ := ih h
      exact ⟨x, by simp [hx], hres⟩

theorem parseParentLoop_inv (c : ResourceCode) (s : String) (rec : ParentRsn) :
    ∀ res : List (PatternCode × Regexp × Regexp),
      parseParentLoop c s res = some (rec, none) →
      ∃ x ∈ res, ∃ m, x.2.1 s = some m ∧ x.1.parentRsn m = some rec := by
  intro res
  induction res with
  | nil => intro h; simp [parseParentLoop] at h
  | cons x rest ih =>
    intro h
    obtain ⟨pc, parentRe, re⟩ := x
    rw [parseParentLoop] at h
    cases hm : parentRe s with
    | some m =>
      simp only [hm] at h
      cases hr : pc.parentRsn m with
      | none => simp [hr] at h
      | some r0 =>
        simp only [hr, Option.map_some', Option.some.injEq, Prod.mk.injEq, and_true] at h
        subst h
        exact ⟨(pc, parentRe, re), by simp, m, hm, hr⟩
    | none =>
      simp only [hm] at h
      obtain ⟨x, hx, hres⟩ := ih h
      exact ⟨x, by simp [hx], hres⟩

theorem compileAll_mem (R : RunEnv) (pcs : List PatternCode) :
    ∀ res, compileAll R pcs = some res →
      ∀ x ∈ res, x.1 ∈ pcs ∧ R.MustCompile x.1.parentRegexString = some x.2.1 ∧
        R.MustCompile x.1.regexString = some x.2.2 := by
  induction pcs with
  | nil =>
    intro res h x hx
    simp only [compileAll, Option.some.injEq] at h
    subst h
    simp at hx
  | cons pc rest ih =>
    intro res h x hx
    obtain ⟨parentRe, re, res', rfl, h1, h2, h3⟩ := compileAll_cons_inv R pc rest res h
    rcases List.mem_cons.1 hx with rfl | hx
    · exact ⟨by simp, h1, h2⟩
    · obtain ⟨h4, h5, h6⟩ := ih res' h3 x hx
      exact ⟨by simp [h4], h5, h6⟩

theorem patternCodes_mem_rev (G : GenEnv) (t : String) (ps : List Pattern) :
    ∀ pcs, patternCodes G t ps = some pcs →
      ∀ pc ∈ pcs, ∃ p ∈ ps, p.code G t = some pc := by
  induction ps with
  | nil =>
    intro pcs h pc hpc
    simp only [patternCodes, Option.some.injEq] at h
    subst h
    simp at hpc
  | cons a rest ih =>
    intro pcs h pc hpc
    obtain ⟨pc0, pcs', rfl, h1, h2⟩ := patternCodes_cons_inv G t a rest pcs h
    rcases List.mem_cons.1 hpc with rfl | hpc
    · exact ⟨a, by simp, h1⟩
    · obtain ⟨p, hp, h3⟩ := ih pcs' h2 pc hpc
      exact ⟨p, by simp [hp], h3⟩

theorem switchType_of_nodup (pcs : List PatternCode)
    (hnd : (pcs.map PatternCode.parentTypeString).Nodup) (pc : PatternCode) (hpc : pc ∈ pcs) :
    switchType pc.parentTypeString pcs = some pc := by
  induction pcs with
  | nil => simp at hpc
  | cons a rest ih =>
    rw [List.map_cons, List.nodup_cons] at hnd
    rw [switchType]
    rcases List.mem_cons.1 hpc with rfl | hpc
    · simp
    · have : pc.parentTypeString ≠ a.parentTypeString := by
        intro e
        exact hnd.1 (e ▸ List.mem_map_of_mem _ hpc)
      rw [if_neg this]
      exact ih hnd.2 hpc

/-- What the generated values of one pattern of an accepted resource are, in terms of its
collection identifiers. -/
theorem code_of_accepted (G : GenEnv) (d : ResourceDescriptor) (r : Resource)
    (c : ResourceCode) (hd : parseResourceFromDescriptor d = (r, none))
    (hg : generateResource G r = some c) (pc : PatternCode) (hpc : pc ∈ c.patterns) :
    ∃ p ∈ r.Patterns, p.code G r.Type_ = some pc ∧
      pc.parentStructFields.length + 1 = p.collectionIds.length ∧
      pc.regexString = joinLoop "/([^/]+)" p.collectionIds 0 "^" ++ "$" ∧
      pc.formatString = joinLoop "/%s" p.collectionIds 0 "" ∧
      pc.parentRegexString =
        joinLoop "/([^/]+)" (p.collectionIds.take (p.collectionIds.length - 1)) 0 "^" ++ "$" ∧
      pc.parentFormatString =
        joinLoop "/%s" (p.collectionIds.take (p.collectionIds.length - 1)) 0 "" := by
  obtain ⟨-, -, -, -, hp⟩ := generateResource_inv G r c hg
  obtain ⟨p, hmem, hcode⟩ := patternCodes_mem_rev G r.Type_ r.Patterns c.patterns hp pc hpc
  obtain ⟨-, -, -, hok, hpat⟩ := parseResourceFromDescriptor_inv d r hd
  rw [hpat] at hmem
  obtain ⟨s, hs, rfl⟩ := List.mem_map.1 hmem
  have hnp : NewPattern s = ((NewPattern s).1, none) := by
    rw [← hok s hs]
  obtain ⟨hl1, hl2, -⟩ := NewPattern_lengths s _ hnp
  obtain ⟨-, h2, -, -, h5, h6, h7, h8⟩ := Pattern_code_inv G r.Type_ _ pc hcode
  obtain ⟨-, hfl⟩ := parentStructFields_length G _ "" _ h2
  refine ⟨(NewPattern s).1, by rw [hpat]; exact hmem, hcode, by omega, h6, h8, h5, h7⟩

/-- C2, the code at the resource with the single pattern `v1.0/{doc}`: the resource is
accepted, its `Parse<T>ResourceName` accepts `v1x0/abc` (the collection identifier is
written into the expression unescaped, and its `.` matches any character), and
`ResourceName()` of the record returned is `v1.0/abc`, not the string parsed. -/
theorem parse_then_format_fails_on_dot :
    ∃ r c pkg rec,
      parseResourceFromDescriptor (ResourceDescriptor.mk "example.com/Doc" ["v1.0/{doc}"]) =
        (r, none) ∧
      generateResource goGen r = some c ∧ c.init goRun = some pkg ∧
      pkg.ParseResourceName "v1x0/abc" = some (rec, none) ∧
      rec.ResourceName goRun c = some "v1.0/abc" ∧
      rec.ResourceName goRun c ≠ some "v1x0/abc" :=
  ⟨Resource.mk "example.com" "Doc" [Pattern.mk ["v1.0"] ["doc"]],
    (generateResource goGen (Resource.mk "example.com" "Doc" [Pattern.mk ["v1.0"] ["doc"]])).getD
      (ResourceCode.mk "" "" [] [] []),
    _, _, by decide, by decide, rfl, rfl, by decide, by decide⟩

theorem rsn_of_match (pc : PatternCode) (s : String) (gs : List String) (rec : Rsn)
    (hl : gs.length = pc.parentStructFields.length + 1) (hnd : pc.parentStructFields.Nodup)
    (hr : pc.rsn (s :: gs) = some rec) :
    rec.Parent.Type_ = pc.parentTypeString ∧
      pc.parentStructFields.map rec.Parent.field ++ [rec.field pc.lastStructField] = gs := by
  have hfi := fieldInits_eq (s :: gs) pc.parentStructFields 0 (by simp; omega)
  have hidx : pc.parentStructFields.length < gs.length := by omega
  simp only [PatternCode.rsn, PatternCode.parentRsn, hfi, Option.map_some',
    List.getElem?_cons_succ, List.getElem?_eq_getElem hidx, Option.some.injEq] at hr
  subst hr
  refine ⟨rfl, ?_⟩
  simp only [zero_add, List.drop_succ_cons, List.drop_zero]
  rw [map_structLit_zip _ _ hnd (by simp; omega)]
  have : structLit [(pc.lastStructField, gs[pc.parentStructFields.length])]
      pc.lastStructField = gs[pc.parentStructFields.length] := by
    simp [structLit]
  rw [this, ← List.concat_eq_append, List.take_concat_get, ← hl, List.take_length]

theorem parentRsn_of_match (pc : PatternCode) (s : String) (gs : List String)
    (rec : ParentRsn) (hl : gs.length = pc.parentStructFields.length)
    (hnd : pc.parentStructFields.Nodup) (hr : pc.parentRsn (s :: gs) = some rec) :
    rec.Type_ = pc.parentTypeString ∧ pc.parentStructFields.map rec.field = gs := by
  have hfi := fieldInits_eq (s :: gs) pc.parentStructFields 0 (by simp; omega)
  simp only [PatternCode.parentRsn, hfi, Option.map_some', Option.some.injEq] at hr
  subst hr
  refine ⟨rfl, ?_⟩
  simp only [zero_add, List.drop_succ_cons, List.drop_zero]
  rw [← hl, List.take_length]
  exact map_structLit_zip _ _ hnd hl.symm

theorem interpretedString_eq (text : String)
    (h : ∀ ch ∈ text.data, interpretedChar ch = true) : interpretedString text = some text := by
  unfold interpretedString
  rw [if_pos (List.all_eq_true.2 h)]

theorem formatString_chars (ids : List String)
    (h : ∀ id ∈ ids, ∀ ch ∈ id.data, interpretedChar ch = true) :
    ∀ ch ∈ (joinLoop "/%s" ids 0 "").data, interpretedChar ch = true := by
  cases ids with
  | nil => intro ch hch; simp [joinLoop] at hch
  | cons c rest =>
    intro ch hch
    rw [joinLoop_zero_data, formatPiece_data] at hch
    simp only [show ("" : String).data = [] from rfl, List.nil_append, List.mem_append,
      tailChars, List.mem_flatMap, List.mem_cons, List.mem_singleton] at hch
    rcases hch with h1 | h2 | h3
    · exact h c (by simp) ch h1
    · rcases h2 with rfl | rfl | rfl | h4
      · decide
      · decide
      · decide
      · simp at h4
    · obtain ⟨id, hid, h5⟩ := h3
      rcases h5 with rfl | h6 | h7
      · decide
      · exact h id (by simp [hid]) ch h6
      · rcases h7 with rfl | rfl | rfl | h8
        · decide
        · decide
        · decide
        · simp at h8

/-- Parsing, then formatting, on collection identifiers that stand for themselves.  For
every resource accepted by `parseResourceFromDescriptor` whose collection identifiers
consist of characters that stand for themselves in a regular expression and in a format
(none of `\ . + * ? ( ) | [ ] { } ^ $ %`) and in the Go source they are written into (no
double quote, backquote, carriage return or newline), and for which the generated package
is accepted by the Go compiler as far as the model sees it (the discriminator values of
the patterns are pairwise distinct, and no pattern has two parent fields of the same
name): whenever `Parse<T>ParentResourceName` accepts a string, `ResourceName()` of the
parent record returned is that string, and whenever `Parse<T>ResourceName` accepts a
string, `ResourceName()` of the record returned is that string. -/
theorem parse_then_format (G : GenEnv) (d : ResourceDescriptor) (r : Resource)
    (c : ResourceCode) (pkg : Package) (s : String)
    (hd : parseResourceFromDescriptor d = (r, none))
    (hg : generateResource G r = some c) (hi : c.init goRun = some pkg)
    (hplain : ∀ p ∈ r.Patterns, ∀ id ∈ p.collectionIds, ∀ ch ∈ id.data, plainChar ch)
    (hsplice : ∀ p ∈ r.Patterns, ∀ id ∈ p.collectionIds, ∀ ch ∈ id.data, spliceChar ch)
    (hdisc : (c.patterns.map PatternCode.parentTypeString).Nodup)
    (hfields : ∀ pc ∈ c.patterns, pc.parentStructFields.Nodup) :
    (∀ rec, pkg.ParseParentResourceName s = some (rec, none) →
      rec.ResourceName goRun c = some s) ∧
    (∀ rec, pkg.ParseResourceName s = some (rec, none) →
      rec.ResourceName goRun c = some s) := by
  obtain ⟨hcode, hcomp⟩ := init_inv goRun c pkg hi
  constructor
  · intro rec h
    unfold Package.ParseParentResourceName at h
    obtain ⟨x, hx, m, hm, hr⟩ := parseParentLoop_inv _ s rec _ h
    obtain ⟨hpc, hre, -⟩ := compileAll_mem goRun c.patterns pkg.regexps hcomp x hx
    obtain ⟨p, hp, -, hlen, -, -, hprs, hpfs⟩ := code_of_accepted G d r c hd hg x.1 hpc
    have hsub : ∀ id ∈ p.collectionIds.take (p.collectionIds.length - 1),
        ∀ ch ∈ id.data, plainChar ch :=
      fun id hid => hplain p hp id (List.mem_of_mem_take hid)
    obtain ⟨re, hre', hall⟩ := match_then_format _ hsub
    rw [hprs] at hre
    have : re = x.2.1 := Option.some.inj (hre'.symm.trans hre)
    subst this
    obtain ⟨gs, rfl, hgl, hsp⟩ := hall s m hm
    have hgl' : gs.length = x.1.parentStructFields.length := by
      rw [hgl, List.length_take]; omega
    obtain ⟨ht, hargs⟩ := parentRsn_of_match x.1 s gs rec hgl' (hfields x.1 hpc) hr
    have hlit : interpretedString x.1.parentFormatString = some x.1.parentFormatString := by
      apply interpretedString_eq
      rw [hpfs]
      exact formatString_chars _
        (fun id hid ch hch => (hsplice p hp id (List.mem_of_mem_take hid) ch hch).1)
    unfold ParentRsn.ResourceName
    rw [ht, switchType_of_nodup c.patterns hdisc x.1 hpc]
    simp only [hlit]
    rw [hargs, hpfs]
    exact hsp
  · intro rec h
    unfold Package.ParseResourceName at h
    obtain ⟨x, hx, m, hm, hr⟩ := parseLoop_inv _ s rec _ h
    obtain ⟨hpc, -, hre⟩ := compileAll_mem goRun c.patterns pkg.regexps hcomp x hx
    obtain ⟨p, hp, -, hlen, hrs, hfs, -, -⟩ := code_of_accepted G d r c hd hg x.1 hpc
    obtain ⟨re, hre', hall⟩ := match_then_format _ (hplain p hp)
    rw [hrs] at hre
    have : re = x.2.2 := Option.some.inj (hre'.symm.trans hre)
    subst this
    obtain ⟨gs, rfl, hgl, hsp⟩ := hall s m hm
    obtain ⟨ht, hargs⟩ := rsn_of_match x.1 s gs rec (by omega) (hfields x.1 hpc) hr
    have hlit : interpretedString x.1.formatString = some x.1.formatString := by
      apply interpretedString_eq
      rw [hfs]
      exact formatString_chars _ (fun id hid ch hch => (hsplice p hp id hid ch hch).1)
    unfold Rsn.ResourceName
    rw [ht, switchType_of_nodup c.patterns hdisc x.1 hpc]
    simp only [hlit]
    rw [hargs, hfs]
    exact hsp

/-- Parsing, then formatting, at the `LogEntry` resource of the specification: the parent name
`organizations/abc` and the name `organizations/abc/logEntries/bef` are parsed and
formatted back to themselves. -/
theorem parse_then_format_witness :
    (∃ rec, logEntryPackage.ParseParentResourceName "organizations/abc" = some (rec, none) ∧
      rec.ResourceName goRun logEntryCode = some "organizations/abc") ∧
    (∃ rec, logEntryPackage.ParseResourceName "organizations/abc/logEntries/bef" =
        some (rec, none) ∧
      rec.ResourceName goRun logEntryCode = some "organizations/abc/logEntries/bef") :=
  ⟨⟨_, rfl,
      (parse_then_format goGen
        (ResourceDescriptor.mk "logging.googleapis.com/LogEntry"
          ["projects/{project}/logEntries/{log_entry}",
            "organizations/{organization}/logEntries/{log_entry}"])
        logEntry logEntryCode logEntryPackage "organizations/abc"
        (by decide) (by decide) rfl (by decide) (by decide) (by decide) (by decide)).1 _ rfl⟩,
    ⟨_, rfl,
      (parse_then_format goGen
        (ResourceDescriptor.mk "logging.googleapis.com/LogEntry"
          ["projects/{project}/logEntries/{log_entry}",
            "organizations/{organization}/logEntries/{log_entry}"])
        logEntry logEntryCode logEntryPackage "organizations/abc/logEntries/bef"
        (by decide) (by decide) rfl (by decide) (by decide) (by decide) (by decide)).2 _ rfl⟩⟩

/-! ## Names and discriminators -/

theorem append_empty_str (s : String) : s ++ "" = s := by
  apply String.ext; simp

theorem append_assoc_str (a b c : String) : a ++ b ++ c = a ++ (b ++ c) := by
  apply String.ext; simp

theorem foldl_append_eq (f : String → String) (vs : List String) :
    ∀ init : String,
      vs.foldl (fun result v => result ++ f v) init = init ++ concatStrings (vs.map f) := by
  induction vs with
  | nil => intro init; simp [concatStrings, append_empty_str]
  | cons v rest ih =>
    intro init
    rw [List.foldl_cons, ih, List.map_cons, concatStrings, append_assoc_str]

/-- C11, the code at two patterns that end in the same collection identifier `logs` but
in different variables: `lastStructFields()` returns two names. -/
theorem lastStructFields_same_collection_two_names :
    (∀ p ∈ sameCollection.Patterns, p.collectionIds.getLast? = some "logs") ∧
      sameCollection.Patterns ≠ [] ∧
      parseResourceFromDescriptor
          (ResourceDescriptor.mk "logging.googleapis.com/Log"
            ["projects/{project}/logs/{log}", "organizations/{organization}/logs/{entry}"]) =
        (sameCollection, none) ∧
      sameCollection.lastStructFields goGen = some ["EntryId", "LogId"] ∧
      (sameCollection.lastStructFields goGen).map List.length = some 2 := by
  decide

/-- C12. For a pattern with exactly one variable `v`, `parentTypeConst()` is
`ToCamel(v) + "RootParentType"`; for a pattern with two or more variables it is the
concatenation of `ToCamel(v)` over all its variables in order, followed by
`"ParentType"`. -/
theorem Pattern_parentTypeConst_eq (G : GenEnv) (ids : List String) :
    (∀ v, (Pattern.mk ids [v]).parentTypeConst G = G.ToCamel v ++ "RootParentType") ∧
    (∀ v w rest, (Pattern.mk ids (v :: w :: rest)).parentTypeConst G =
      concatStrings ((v :: w :: rest).map G.ToCamel) ++ "ParentType") := by
  refine ⟨fun v => rfl, ?_⟩
  intro v w rest
  simp only [Pattern.parentTypeConst]
  rw [foldl_append_eq, empty_append]

/-- C12 at the patterns of the specification: `OrganizationLogEntryParentType` and
`OrganizationRootParentType`. -/
theorem Pattern_parentTypeConst_eq_witness :
    (NewPattern "organizations/{organization}/logEntries/{log_entry}").1.parentTypeConst goGen =
        "OrganizationLogEntryParentType" ∧
      (NewPattern "organizations/{organization}").1.parentTypeConst goGen =
        "OrganizationRootParentType" := by
  decide

/-- C13. For a pattern with one variable `parentTypeString()` is the empty string; for a
pattern with two or more variables it is `ToLowerCamel` of the first variable followed by
`ToCamel` of each variable strictly between the first and the last, without a separator.
So two patterns with two or more variables that differ only in the last variable and in
the collection identifiers have the same `parentTypeString()`. -/
theorem Pattern_parentTypeString_eq (G : GenEnv) (ids : List String) :
    (∀ v, (Pattern.mk ids [v]).parentTypeString G = some "") ∧
    (∀ v w rest, (Pattern.mk ids (v :: w :: rest)).parentTypeString G =
      some (G.ToLowerCamel v ++ concatStrings ((w :: rest).dropLast.map G.ToCamel))) ∧
    (∀ ids' v middle last last',
      (Pattern.mk ids (v :: (middle ++ [last]))).parentTypeString G =
        (Pattern.mk ids' (v :: (middle ++ [last']))).parentTypeString G) := by
  have h2 : ∀ (is : List String) (v w : String) (rest : List String),
      (Pattern.mk is (v :: w :: rest)).parentTypeString G =
        some (G.ToLowerCamel v ++ concatStrings ((w :: rest).dropLast.map G.ToCamel)) := by
    intro is v w rest
    simp only [Pattern.parentTypeString]
    rw [foldl_append_eq, List.dropLast_eq_take]
  refine ⟨fun v => rfl, h2 ids, ?_⟩
  intro ids' v middle last last'
  cases middle with
  | nil => rfl
  | cons w rest =>
    simp only [List.cons_append]
    rw [h2, h2]
    have : ∀ x : String, (w :: (rest ++ [x])).dropLast = w :: rest := by
      intro x
      rw [← List.cons_append, List.dropLast_concat]
    rw [this, this]

/-- C13 at the patterns of the specification: the values `organization` and the empty
string. -/
theorem Pattern_parentTypeString_eq_witness :
    (NewPattern "organizations/{organization}/logEntries/{log_entry}").1.parentTypeString
        goGen = some "organization" ∧
      (NewPattern "organizations/{organization}").1.parentTypeString goGen = some "" ∧
      (Pattern.mk ["a", "b", "c"] ["first_var", "mid_var", "x"]).parentTypeString goGen =
        some "firstVarMidVar" := by
  decide

/-! ## The expressions and templates in closed form -/

theorem stringsJoin_cons_data (x : String) (xs : List String) :
    (stringsJoin (x :: xs) "/").data = x.data ++ xs.flatMap fun y => '/' :: y.data := by
  induction xs generalizing x with
  | nil => simp [stringsJoin]
  | cons y rest ih =>
    rw [stringsJoin, String.data_append, String.data_append, ih y]
    simp [slash_data]

theorem joinLoop_eq_stringsJoin (piece : String) (ids : List String) (result : String) :
    joinLoop piece ids 0 result =
      result ++ stringsJoin (ids.map fun c => c ++ piece) "/" := by
  cases ids with
  | nil => simp [joinLoop, stringsJoin, append_empty_str]
  | cons c rest =>
    apply String.ext
    rw [joinLoop_zero_data, String.data_append, List.map_cons, stringsJoin_cons_data]
    simp [tailChars, List.flatMap_map]

theorem getLast_append_cons {α : Type} (l : List α) (a : α) (l' : List α) :
    (l ++ a :: l').getLast? = (a :: l').getLast? := by
  rw [List.getLast?_append_of_ne_nil _ (by simp)]

theorem getLast_cons_of_some {α : Type} (a : α) (l : List α) (x : α)
    (h : l.getLast? = some x) : (a :: l).getLast? = some x := by
  cases l with
  | nil => simp at h
  | cons b t => rw [List.getLast?_cons_cons]; exact h

theorem tailAtoms_getLast (ids : List String) :
    (tailAtoms ids).getLast? = some RegexAtom.eot := by
  induction ids with
  | nil => rfl
  | cons d ds ih =>
    simp only [tailAtoms]
    apply getLast_cons_of_some
    rw [getLast_append_cons]
    exact getLast_cons_of_some _ _ _ (getLast_cons_of_some _ _ _ ih)

theorem count_group_litAtoms (cs : List Char) : (litAtoms cs).count RegexAtom.group = 0 := by
  induction cs with
  | nil => simp [litAtoms]
  | cons ch cs ih =>
    simp only [litAtoms, List.map_cons] at ih ⊢
    by_cases h : ch = '.'
    · simp [h, ih]
    · simp [h, ih]

theorem count_group_tailAtoms (ids : List String) :
    (tailAtoms ids).count RegexAtom.group = ids.length := by
  induction ids with
  | nil => simp [tailAtoms]
  | cons c rest ih =>
    simp [tailAtoms, List.count_cons, List.count_append, count_group_litAtoms, ih]

theorem count_group_allAtoms (ids : List String) :
    (allAtoms ids).count RegexAtom.group = ids.length := by
  cases ids with
  | nil => simp [allAtoms]
  | cons c rest =>
    simp [allAtoms, List.count_cons, List.count_append, count_group_litAtoms,
      count_group_tailAtoms]

/-- C14. For every pattern, `regexString()` is `^`, then the strings
`collectionId + "/([^/]+)"` joined by `/`, then `$`: it starts with the start anchor and
ends with the end anchor, and (for collection identifiers that the model of the regular
expressions reads as literal text) it has exactly one capture group for each collection
identifier. -/
theorem Pattern_regexString_eq (p : Pattern) :
    p.regexString =
        "^" ++ stringsJoin (p.collectionIds.map fun c => c ++ "/([^/]+)") "/" ++ "$" ∧
      (p.collectionIds.map fun c => c ++ "/([^/]+)").length = p.collectionIds.length ∧
      p.regexString.data.head? = some '^' ∧ p.regexString.data.getLast? = some '$' ∧
      ((∀ c ∈ p.collectionIds, ∀ ch ∈ c.data, ch = '.' ∨ regexMeta ch = false) →
        ∃ atoms, parseRegex p.regexString.data = some atoms ∧
          atoms.head? = some RegexAtom.bot ∧ atoms.getLast? = some RegexAtom.eot ∧
          atoms.count RegexAtom.group = p.collectionIds.length) := by
  have h : p.regexString =
      "^" ++ stringsJoin (p.collectionIds.map fun c => c ++ "/([^/]+)") "/" ++ "$" := by
    unfold Pattern.regexString
    rw [joinLoop_eq_stringsJoin]
  refine ⟨h, by simp, ?_, ?_, ?_⟩
  · rw [h]
    simp only [String.data_append]
    rfl
  · rw [h]
    simp only [String.data_append]
    rw [getLast_append_cons]
    rfl
  · intro hlit
    refine ⟨allAtoms p.collectionIds, regexString_parse _ hlit, ?_, ?_,
      count_group_allAtoms _⟩
    · cases p.collectionIds <;> rfl
    · cases hids : p.collectionIds with
      | nil => rfl
      | cons c rest =>
        simp only [allAtoms]
        apply getLast_cons_of_some
        rw [getLast_append_cons]
        exact getLast_cons_of_some _ _ _ (getLast_cons_of_some _ _ _ (tailAtoms_getLast rest))

/-- C14 at the `LogEntry` pattern. -/
theorem Pattern_regexString_eq_witness :
    (Pattern.mk ["organizations", "logEntries"] ["organization", "log_entry"]).regexString =
      "^organizations/([^/]+)/logEntries/([^/]+)$" := by
  decide

/-- C15. For every pattern, `formatString()` is the strings `collectionId + "/%s"` joined
by `/`: the collection identifiers of `regexString()` in the same order, with one slot
`%s` where `regexString()` has the capture group `([^/]+)`. -/
theorem Pattern_formatString_eq (p : Pattern) :
    p.formatString = stringsJoin (p.collectionIds.map fun c => c ++ "/%s") "/" ∧
      p.regexString =
        "^" ++ stringsJoin (p.collectionIds.map fun c => c ++ "/([^/]+)") "/" ++ "$" ∧
      (p.collectionIds.map fun c => c ++ "/%s").length =
        (p.collectionIds.map fun c => c ++ "/([^/]+)").length := by
  refine ⟨?_, ?_, by simp⟩
  · unfold Pattern.formatString
    rw [joinLoop_eq_stringsJoin, empty_append]
  · unfold Pattern.regexString
    rw [joinLoop_eq_stringsJoin]

/-- C15 at the `LogEntry` pattern. -/
theorem Pattern_formatString_eq_witness :
    (Pattern.mk ["organizations", "logEntries"] ["organization", "log_entry"]).formatString =
      "organizations/%s/logEntries/%s" := by
  decide

/-- C16. For every pattern, `parentRegexString()` and `parentFormatString()` are
`regexString()` and `formatString()` of the pattern with its last collection identifier
and its last variable dropped; for a pattern with one pair they are `^$` and the empty
string. -/
theorem Pattern_parent_strings_eq (p : Pattern) :
    p.parentRegexString =
        (Pattern.mk p.collectionIds.dropLast p.resourceVars.dropLast).regexString ∧
      p.parentFormatString =
        (Pattern.mk p.collectionIds.dropLast p.resourceVars.dropLast).formatString ∧
      (∀ c v, (Pattern.mk [c] [v]).parentRegexString = "^$" ∧
        (Pattern.mk [c] [v]).parentFormatString = "") := by
  refine ⟨?_, ?_, ?_⟩
  · unfold Pattern.parentRegexString Pattern.regexString
    rw [List.dropLast_eq_take]
  · unfold Pattern.parentFormatString Pattern.formatString
    rw [List.dropLast_eq_take]
  · intro c v
    exact ⟨rfl, rfl⟩

/-- C16 at the `LogEntry` pattern and at a root pattern. -/
theorem Pattern_parent_strings_eq_witness :
    (Pattern.mk ["organizations", "logEntries"]
        ["organization", "log_entry"]).parentRegexString = "^organizations/([^/]+)$" ∧
      (Pattern.mk ["organizations", "logEntries"]
        ["organization", "log_entry"]).parentFormatString = "organizations/%s" ∧
      (Pattern.mk ["organizations"] ["organization"]).parentRegexString = "^$" ∧
      (Pattern.mk ["organizations"] ["organization"]).parentFormatString = "" := by
  decide

/-! ## The permissive default of `ResourceName()` -/

theorem switchType_none (t : String) (pcs : List PatternCode)
    (h : ∀ pc ∈ pcs, t ≠ pc.parentTypeString) : switchType t pcs = none := by
  induction pcs with
  | nil => rfl
  | cons a rest ih =>
    rw [switchType, if_neg (h a (by simp))]
    exact ih (fun pc hpc => h pc (by simp [hpc]))

theorem typeString_of_code (G : GenEnv) (r : Resource) (c : ResourceCode)
    (hg : generateResource G r = some c) (pc : PatternCode) (hpc : pc ∈ c.patterns) :
    ∃ p ∈ r.Patterns, p.code G r.Type_ = some pc ∧
      p.parentTypeString G = some pc.parentTypeString := by
  obtain ⟨-, -, -, -, hp⟩ := generateResource_inv G r c hg
  obtain ⟨p, hmem, hcode⟩ := patternCodes_mem_rev G r.Type_ r.Patterns c.patterns hp pc hpc
  exact ⟨p, hmem, hcode, (Pattern_code_inv G r.Type_ p pc hcode).1⟩

/-- C17. For every resource, the emitted `ResourceName()` of the parent record and of
the resource record returns the empty string, and does not fail, for every record whose
discriminator `Type` is the `parentTypeString()` of no pattern of the resource, whatever
its other fields hold. -/
theorem ResourceName_default_empty (G : GenEnv) (R : RunEnv) (r : Resource)
    (c : ResourceCode) (hg : generateResource G r = some c) :
    (∀ rec : ParentRsn, (∀ p ∈ r.Patterns, p.parentTypeString G ≠ some rec.Type_) →
      rec.ResourceName R c = some "") ∧
    (∀ rec : Rsn, (∀ p ∈ r.Patterns, p.parentTypeString G ≠ some rec.Parent.Type_) →
      rec.ResourceName R c = some "") := by
  have key : ∀ t : String, (∀ p ∈ r.Patterns, p.parentTypeString G ≠ some t) →
      switchType t c.patterns = none := by
    intro t ht
    apply switchType_none
    intro pc hpc e
    obtain ⟨p, hp, -, hts⟩ := typeString_of_code G r c hg pc hpc
    exact ht p hp (by rw [hts, e])
  constructor
  · intro rec h
    unfold ParentRsn.ResourceName
    rw [key _ h]
  · intro rec h
    unfold Rsn.ResourceName
    rw [key _ h]

/-- C17 at the `LogEntry` resource: records with the discriminator `folder`, which is the
value of neither pattern, are formatted to the empty string. -/
theorem ResourceName_default_empty_witness :
    generateResource goGen logEntry = some logEntryCode ∧
      (ParentRsn.mk (structLit [("ProjectId", "abc")]) "folder").ResourceName goRun
        logEntryCode = some "" ∧
      (Rsn.mk (ParentRsn.mk (structLit [("ProjectId", "abc")]) "folder")
        (structLit [("LogEntryId", "bef")])).ResourceName goRun logEntryCode = some "" :=
  ⟨by decide,
    (ResourceName_default_empty goGen goRun logEntry logEntryCode (by decide)).1
      (ParentRsn.mk (structLit [("ProjectId", "abc")]) "folder") (by decide),
    (ResourceName_default_empty goGen goRun logEntry logEntryCode (by decide)).2
      (Rsn.mk (ParentRsn.mk (structLit [("ProjectId", "abc")]) "folder")
        (structLit [("LogEntryId", "bef")])) (by decide)⟩

/-! ## The pattern invariant -/

/-- C18. Every pattern returned without an error by `NewPattern(s)` has as many
collection identifiers as variables, namely half the number of `/`-separated segments of
`s`, and at least one; so the first and the last variable exist, and the methods that
index the variables (`parentStructFields`, `lastStructField`, `parentTypeString`,
`parentRegexName`) do not panic, `parentStructFields` returning `N - 1` names.
(`parentTypeConst` and `regexName` index nothing outside their loops.) -/
theorem NewPattern_invariant (G : GenEnv) (s : String) (p : Pattern) (pfx t : String)
    (h : NewPattern s = (p, none)) :
    p.collectionIds.length = (stringsSplit s '/').length / 2 ∧
      p.resourceVars.length = (stringsSplit s '/').length / 2 ∧
      1 ≤ p.resourceVars.length ∧
      p.resourceVars[0]?.isSome = true ∧
      p.resourceVars[p.resourceVars.length - 1]?.isSome = true ∧
      (∃ fields, p.parentStructFields G pfx = some fields ∧
        fields.length = p.resourceVars.length - 1) ∧
      (p.lastStructField G pfx).isSome = true ∧
      (p.parentTypeString G).isSome = true ∧
      (p.parentRegexName G t).isSome = true := by
  obtain ⟨h1, h2, h3⟩ := NewPattern_lengths s p h
  have hne : p.resourceVars ≠ [] := List.length_pos.1 h2
  refine ⟨h3, by omega, h2, ?_, ?_, ?_, ?_, ?_, ?_⟩
  · rw [List.getElem?_eq_getElem h2]; rfl
  · rw [List.getElem?_eq_getElem (by omega)]; rfl
  · refine ⟨_, Pattern_parentStructFields_some G p pfx hne, ?_⟩
    simp
  · rw [Pattern_lastStructField_some G p pfx hne]; rfl
  · unfold Pattern.parentTypeString
    cases hv : p.resourceVars with
    | nil => exact absurd hv hne
    | cons v rest => cases rest <;> rfl
  · unfold Pattern.parentRegexName
    cases hv : p.resourceVars with
    | nil => exact absurd hv hne
    | cons v rest => rfl

/-- C18 at the `LogEntry` pattern, with its four segments and two pairs. -/
theorem NewPattern_invariant_witness :
    (Pattern.mk ["organizations", "logEntries"] ["organization", "log_entry"]).collectionIds.length =
        (stringsSplit "organizations/{organization}/logEntries/{log_entry}" '/').length / 2 ∧
      (stringsSplit "organizations/{organization}/logEntries/{log_entry}" '/').length / 2 = 2 ∧
      (Pattern.mk ["organizations", "logEntries"] ["organization", "log_entry"]).parentStructFields
        goGen "" = some ["OrganizationId"] :=
  ⟨(NewPattern_invariant goGen "organizations/{organization}/logEntries/{log_entry}"
      (Pattern.mk ["organizations", "logEntries"] ["organization", "log_entry"]) "" "LogEntry"
      (by decide)).1, by decide, by decide⟩

/-! ## Independence of the order of the patterns and of the map -/

theorem parentFieldSet_none (G : GenEnv) (ps : List Pattern) (p : Pattern) (hp : p ∈ ps)
    (hv : p.resourceVars = []) : ∀ m, parentFieldSet G ps m = none := by
  induction ps with
  | nil => simp at hp
  | cons a rest ih =>
    intro m
    rw [parentFieldSet]
    rcases List.mem_cons.1 hp with rfl | hp
    · simp [Pattern.parentStructFields, hv]
    · cases Pattern.parentStructFields G a "" with
      | none => rfl
      | some fs => exact ih hp _

theorem lastFieldSet_none (G : GenEnv) (ps : List Pattern) (p : Pattern) (hp : p ∈ ps)
    (hv : p.resourceVars = []) : ∀ m, lastFieldSet G ps m = none := by
  induction ps with
  | nil => simp at hp
  | cons a rest ih =>
    intro m
    rw [lastFieldSet]
    rcases List.mem_cons.1 hp with rfl | hp
    · simp [Pattern.lastStructField, hv]
    · cases Pattern.lastStructField G a "" with
      | none => rfl
      | some fs => exact ih hp _

theorem sorted_eq_of_mem_iff (l l' : List String) (h : l.Sorted (fun a b => a < b))
    (h' : l'.Sorted (fun a b => a < b)) (hmem : ∀ f, f ∈ l ↔ f ∈ l') : l = l' := by
  have hnd : l.Nodup := h.imp (fun hab => ne_of_lt hab)
  have hnd' : l'.Nodup := h'.imp (fun hab => ne_of_lt hab)
  exact List.eq_of_perm_of_sorted ((List.perm_ext_iff_of_nodup hnd hnd').2 hmem) h h'

theorem parentFields_char (G : GenEnv) (r : Resource)
    (h : ∀ p ∈ r.Patterns, p.resourceVars ≠ []) :
    ∃ fields, r.parentStructFields G = some fields ∧ fields.Sorted (fun a b => a < b) ∧
      ∀ f, f ∈ fields ↔
        ∃ p ∈ r.Patterns, ∃ v ∈ p.resourceVars.dropLast, f = G.ToCamel v ++ "Id" := by
  obtain ⟨res, hres, hnd, hmem⟩ := parentFieldSet_spec G r.Patterns h [] List.nodup_nil
  have hperm : (sortSlice (G.rangeKeys res)).Perm res :=
    (sortSlice_perm _).trans (G.rangeKeys_perm res)
  refine ⟨sortSlice (G.rangeKeys res), by simp [Resource.parentStructFields, hres],
    sortSlice_sorted _ ((G.rangeKeys_perm res).nodup_iff.2 hnd), ?_⟩
  intro f
  rw [hperm.mem_iff, hmem]
  simp

theorem lastFields_char (G : GenEnv) (r : Resource)
    (h : ∀ p ∈ r.Patterns, p.resourceVars ≠ []) :
    ∃ fields, r.lastStructFields G = some fields ∧ fields.Sorted (fun a b => a < b) ∧
      ∀ f, f ∈ fields ↔
        ∃ p ∈ r.Patterns, ∃ v, p.resourceVars.getLast? = some v ∧
          f = G.ToCamel v ++ "Id" := by
  obtain ⟨res, hres, hnd, hmem⟩ := lastFieldSet_spec G r.Patterns h [] List.nodup_nil
  have hperm : (sortSlice (G.rangeKeys res)).Perm res :=
    (sortSlice_perm _).trans (G.rangeKeys_perm res)
  refine ⟨sortSlice (G.rangeKeys res), by simp [Resource.lastStructFields, hres],
    sortSlice_sorted _ ((G.rangeKeys_perm res).nodup_iff.2 hnd), ?_⟩
  intro f
  rw [hperm.mem_iff, hmem]
  simp

/-- C19. For two resources whose pattern lists hold the same patterns (in any order, any
of them any number of times), `parentStructFields()` returns the same list for both and
`lastStructFields()` returns the same list for both, whatever the order in which the keys
of the intermediate map are visited in either computation. -/
theorem reconciliation_independent_of_order (G G' : GenEnv) (r r' : Resource)
    (hc : G.ToCamel = G'.ToCamel) (hset : ∀ p, p ∈ r.Patterns ↔ p ∈ r'.Patterns) :
    r.parentStructFields G = r'.parentStructFields G' ∧
      r.lastStructFields G = r'.lastStructFields G' := by
  by_cases hall : ∀ p ∈ r.Patterns, p.resourceVars ≠ []
  · have hall' : ∀ p ∈ r'.Patterns, p.resourceVars ≠ [] :=
      fun p hp => hall p ((hset p).2 hp)
    obtain ⟨l1, e1, s1, m1⟩ := parentFields_char G r hall
    obtain ⟨l2, e2, s2, m2⟩ := parentFields_char G' r' hall'
    obtain ⟨k1, f1, t1, n1⟩ := lastFields_char G r hall
    obtain ⟨k2, f2, t2, n2⟩ := lastFields_char G' r' hall'
    rw [e1, e2, f1, f2]
    constructor
    · congr 1
      apply sorted_eq_of_mem_iff _ _ s1 s2
      intro f
      rw [m1, m2, hc]
      constructor
      · rintro ⟨p, hp, rest⟩
        exact ⟨p, (hset p).1 hp, rest⟩
      · rintro ⟨p, hp, rest⟩
        exact ⟨p, (hset p).2 hp, rest⟩
    · congr 1
      apply sorted_eq_of_mem_iff _ _ t1 t2
      intro f
      rw [n1, n2, hc]
      constructor
      · rintro ⟨p, hp, rest⟩
        exact ⟨p, (hset p).1 hp, rest⟩
      · rintro ⟨p, hp, rest⟩
        exact ⟨p, (hset p).2 hp, rest⟩
  · push_neg at hall
    obtain ⟨p, hp, hv⟩ := hall
    have hp' := (hset p).1 hp
    simp [Resource.parentStructFields, Resource.lastStructFields,
      parentFieldSet_none G _ p hp hv, parentFieldSet_none G' _ p hp' hv,
      lastFieldSet_none G _ p hp hv, lastFieldSet_none G' _ p hp' hv]

/-- C19 at the `LogEntry` patterns, against the same patterns in another order with one
of them repeated and a map visited in the reverse order. -/
theorem reconciliation_independent_of_order_witness :
    (logEntryShuffled.parentStructFields goGenReversed = some ["OrganizationId", "ProjectId"] ∧
      logEntryShuffled.lastStructFields goGenReversed = some ["LogEntryId"]) ∧
    (logEntry.parentStructFields goGen = logEntryShuffled.parentStructFields goGenReversed ∧
      logEntry.lastStructFields goGen = logEntryShuffled.lastStructFields goGenReversed) :=
  ⟨by decide,
    reconciliation_independent_of_order goGen goGenReversed logEntry logEntryShuffled rfl
      (by intro p; simp only [logEntry, logEntryShuffled, List.mem_cons]; tauto)⟩

/-! ## A parsed name is not the zero name -/

theorem matchHere_groups_nonempty (atoms : List RegexAtom) :
    ∀ (b : Bool) (xs w : List Char) (gs : List (List Char)),
      matchHere atoms b xs = some (w, gs) → ∀ g ∈ gs, g ≠ [] := by
  induction atoms with
  | nil =>
    intro b xs w gs h
    simp only [matchHere, Option.some.injEq, Prod.mk.injEq] at h
    obtain ⟨-, rfl⟩ := h
    simp
  | cons a rest ih =>
    intro b xs w gs h
    cases a with
    | bot =>
      rw [matchHere] at h
      by_cases hb : b = true
      · simp only [hb, if_true] at h
        exact ih _ _ _ _ h
      · simp [hb] at h
    | eot =>
      rw [matchHere] at h
      by_cases hx : xs = []
      · simp only [hx, if_true] at h
        exact ih _ _ _ _ h
      · simp [hx] at h
    | any =>
      cases xs with
      | nil => simp [matchHere] at h
      | cons x ys =>
        rw [matchHere] at h
        by_cases hx : x = '\n'
        · simp [hx] at h
        · simp only [hx, if_false] at h
          cases hm : matchHere rest false ys with
          | none => simp [hm] at h
          | some r =>
            obtain ⟨w', gs'⟩ := r
            simp only [hm, Option.map_some', Option.some.injEq, Prod.mk.injEq] at h
            obtain ⟨-, rfl⟩ := h
            exact ih _ _ _ _ hm
    | lit c =>
      obtain ⟨ys, w', -, hm, -⟩ := matchHere_lit_inv c rest b xs w gs h
      exact ih _ _ _ _ hm
    | group =>
      obtain ⟨j, w', gs', hj, hjn, hm, -, rfl⟩ := matchHere_group_inv rest b xs w gs h
      intro g hg
      rcases List.mem_cons.1 hg with rfl | hg
      · have hlen : (xs.takeWhile (· ≠ '/')).length ≤ xs.length :=
          (List.takeWhile_sublist _).length_le
        intro e
        have : (List.take j xs).length = 0 := by rw [e]; rfl
        rw [List.length_take] at this
        omega
      · exact ih _ _ _ _ hm g hg

theorem findFrom_groups_nonempty (atoms : List RegexAtom) :
    ∀ (xs : List Char) (b : Bool) (w : List Char) (gs : List (List Char)),
      findFrom atoms b xs = some (w, gs) → ∀ g ∈ gs, g ≠ [] := by
  intro xs
  induction xs with
  | nil =>
    intro b w gs h
    rw [findFrom] at h
    exact matchHere_groups_nonempty atoms b [] w gs h
  | cons x xs ih =>
    intro b w gs h
    rw [findFrom] at h
    cases hm : matchHere atoms b (x :: xs) with
    | some r =>
      simp only [hm, Option.some.injEq] at h
      subst h
      exact matchHere_groups_nonempty atoms b _ w gs hm
    | none =>
      simp only [hm] at h
      exact ih false w gs h

theorem goMustCompile_groups_nonempty (expr : String) (re : Regexp)
    (hre : goMustCompile expr = some re) (s : String) (m : List String)
    (hm : re s = some m) : ∃ w gs, m = w :: gs ∧ ∀ g ∈ gs, g ≠ "" := by
  unfold goMustCompile at hre
  cases hp : parseRegex expr.data with
  | none => simp [hp] at hre
  | some atoms =>
    simp only [hp, Option.map_some', Option.some.injEq] at hre
    subst hre
    simp only at hm
    cases hf : findFrom atoms true s.data with
    | none => simp [hf] at hm
    | some r =>
      obtain ⟨w, gs⟩ := r
      simp only [hf, Option.map_some', Option.some.injEq] at hm
      refine ⟨String.mk w, gs.map String.mk, hm.symm, ?_⟩
      intro g hg
      obtain ⟨g0, hg0, rfl⟩ := List.mem_map.1 hg
      have := findFrom_groups_nonempty atoms s.data true w gs hf g0 hg0
      intro e
      apply this
      have : (String.mk g0).data = ("" : String).data := by rw [e]
      simpa using this

theorem compileAll_of_plain (G : GenEnv) (t : String) (ps : List Pattern)
    (hplain : ∀ p ∈ ps, ∀ id ∈ p.collectionIds, ∀ ch ∈ id.data, regexMeta ch = false) :
    ∀ pcs, patternCodes G t ps = some pcs → ∃ res, compileAll goRun pcs = some res := by
  induction ps with
  | nil =>
    intro pcs h
    simp only [patternCodes, Option.some.injEq] at h
    subst h
    exact ⟨[], rfl⟩
  | cons a rest ih =>
    intro pcs h
    obtain ⟨pc, pcs', rfl, hpc, hrest⟩ := patternCodes_cons_inv G t a rest pcs h
    obtain ⟨res', hres'⟩ := ih (fun p hp => hplain p (by simp [hp])) pcs' hrest
    obtain ⟨-, -, -, -, h5, h6, -, -⟩ := Pattern_code_inv G t a pc hpc
    have hok : ∀ id ∈ a.collectionIds, ∀ ch ∈ id.data, ch = '.' ∨ regexMeta ch = false :=
      fun id hid ch hch => Or.inr (hplain a (by simp) id hid ch hch)
    have hr := regexString_parse a.collectionIds hok
    have hpr := regexString_parse (a.collectionIds.take (a.collectionIds.length - 1))
      (fun id hid => hok id (List.mem_of_mem_take hid))
    have e1 : goRun.MustCompile pc.regexString = goMustCompile a.regexString := by rw [h6]; rfl
    have e2 : goRun.MustCompile pc.parentRegexString = goMustCompile a.parentRegexString := by
      rw [h5]; rfl
    unfold Pattern.regexString at e1
    unfold Pattern.parentRegexString at e2
    simp only [goMustCompile, hr, hpr, Option.map_some'] at e1 e2
    obtain ⟨re1, he1⟩ : ∃ re, goRun.MustCompile pc.regexString = some re := ⟨_, e1⟩
    obtain ⟨re2, he2⟩ : ∃ re, goRun.MustCompile pc.parentRegexString = some re := ⟨_, e2⟩
    exact ⟨(pc, re2, re1) :: res', by simp only [compileAll, he1, he2, hres']⟩

theorem lastFieldSet_mem (G : GenEnv) (ps : List Pattern) :
    ∀ m res, lastFieldSet G ps m = some res →
      (∀ f ∈ m, f ∈ res) ∧
        ∀ p ∈ ps, ∀ last, p.lastStructField G "" = some last → last ∈ res := by
  induction ps with
  | nil =>
    intro m res h
    simp only [lastFieldSet, Option.some.injEq] at h
    subst h
    exact ⟨fun f hf => hf, fun p hp => by simp at hp⟩
  | cons a rest ih =>
    intro m res h
    rw [lastFieldSet] at h
    cases ha : Pattern.lastStructField G a "" with
    | none => simp [ha] at h
    | some field =>
      simp only [ha] at h
      obtain ⟨h1, h2⟩ := ih _ res h
      refine ⟨fun f hf => h1 f ((mem_mapInsert m field f).2 (Or.inl hf)), ?_⟩
      intro p hp last hl
      rcases List.mem_cons.1 hp with rfl | hp
      · rw [ha] at hl
        cases hl
        exact h1 _ ((mem_mapInsert m _ _).2 (Or.inr rfl))
      · exact h2 p hp last hl

theorem lastStructField_mem_code (G : GenEnv) (r : Resource) (c : ResourceCode)
    (hg : generateResource G r = some c) (pc : PatternCode) (hpc : pc ∈ c.patterns) :
    pc.lastStructField ∈ c.lastStructFields := by
  obtain ⟨-, -, -, hl, hp⟩ := generateResource_inv G r c hg
  obtain ⟨p, hmem, hcode⟩ := patternCodes_mem_rev G r.Type_ r.Patterns c.patterns hp pc hpc
  have h3 := (Pattern_code_inv G r.Type_ p pc hcode).2.2.1
  unfold Resource.lastStructFields at hl
  cases hs : lastFieldSet G r.Patterns [] with
  | none => simp [hs] at hl
  | some res =>
    simp only [hs, Option.map_some', Option.some.injEq] at hl
    rw [← hl]
    have hin := (lastFieldSet_mem G r.Patterns [] res hs).2 p hmem _ h3
    exact ((sortSlice_perm _).trans (G.rangeKeys_perm res)).mem_iff.2 hin

/-- C20. For every resource whose collection identifiers contain no regular-expression
metacharacter, the generated package initialises, and for every string that the emitted
`Parse<T>ResourceName` accepts, `IsZero()` of the record returned is false: the identifier
field of the pattern that matched holds a capture group, which is not empty. -/
theorem parsed_name_is_not_zero (G : GenEnv) (r : Resource) (c : ResourceCode)
    (hg : generateResource G r = some c)
    (hplain : ∀ p ∈ r.Patterns, ∀ id ∈ p.collectionIds, ∀ ch ∈ id.data,
      regexMeta ch = false) :
    ∃ pkg, c.init goRun = some pkg ∧
      ∀ s rec, pkg.ParseResourceName s = some (rec, none) →
        rec.IsZero c = false ∧
          ∃ pc ∈ c.patterns, pc.lastStructField ∈ c.lastStructFields ∧
            rec.field pc.lastStructField ≠ "" := by
  obtain ⟨-, -, -, -, hp⟩ := generateResource_inv G r c hg
  obtain ⟨res, hres⟩ := compileAll_of_plain G r.Type_ r.Patterns hplain c.patterns hp
  refine ⟨Package.mk c res, by simp [ResourceCode.init, hres], ?_⟩
  intro s rec h
  unfold Package.ParseResourceName at h
  obtain ⟨x, hx, m, hm, hr⟩ := parseLoop_inv _ s rec _ h
  obtain ⟨hpc, -, hre⟩ := compileAll_mem goRun c.patterns res hres x hx
  obtain ⟨w, gs, rfl, hgs⟩ := goMustCompile_groups_nonempty _ _ hre s m hm
  have hmem := lastStructField_mem_code G r c hg x.1 hpc
  have hfield : rec.field x.1.lastStructField ≠ "" := by
    unfold PatternCode.rsn at hr
    cases hpr : x.1.parentRsn (w :: gs) with
    | none => simp [hpr] at hr
    | some parent =>
      cases hl : (w :: gs)[x.1.parentStructFields.length + 1]? with
      | none => simp [hpr, hl] at hr
      | some last =>
        simp only [hpr, hl, Option.some.injEq] at hr
        subst hr
        simp only [structLit, if_true]
        rw [List.getElem?_cons_succ] at hl
        exact hgs last (List.getElem?_mem hl)
  refine ⟨?_, x.1, hpc, hmem, hfield⟩
  unfold Rsn.IsZero
  have : (c.lastStructFields.all fun structField =>
      (rec.field structField).length == 0) = false := by
    rw [List.all_eq_false]
    refine ⟨x.1.lastStructField, hmem, ?_⟩
    simp only [beq_iff_eq, length_eq_zero_iff]
    exact hfield
  rw [this, Bool.and_false]

/-- C20 at the `LogEntry` resource and the name `organizations/abc/logEntries/bef`: the
record returned is not zero. -/
theorem parsed_name_is_not_zero_witness :
    generateResource goGen logEntry = some logEntryCode ∧
      (∃ rec, logEntryPackage.ParseResourceName "organizations/abc/logEntries/bef" =
          some (rec, none) ∧ rec.IsZero logEntryCode = false) ∧
      ∃ pkg, logEntryCode.init goRun = some pkg ∧
        ∀ s rec, pkg.ParseResourceName s = some (rec, none) →
          rec.IsZero logEntryCode = false ∧
            ∃ pc ∈ logEntryCode.patterns, pc.lastStructField ∈ logEntryCode.lastStructFields ∧
              rec.field pc.lastStructField ≠ "" :=
  ⟨by decide, ⟨_, rfl, by decide⟩,
    parsed_name_is_not_zero goGen logEntry logEntryCode (by decide) (by decide)⟩
end GoRsn
